import Mathlib

/-!
Verification of the petroflow core: the `Well` tree model
(`src/well_logs/core/well.py`) and the `WellBatch` parallel-dispatch
post-processing (`src/petroflow/src/well_batch.py`).

The Python code is shallowly embedded:
* `WellSegment` leaves are opaque records carrying `depth_from`/`depth_to`
  (real-valued; modelled as rationals).
* A `Well` and its `segments` list form the nested inductive `WTree`.
* Python exceptions (`AttributeError`, `ValueError`, `IndexError`, ...)
  become an explicit `Except PyErr` result.
* `WellBatch._filter_assemble` is embedded over an abstract identifier type
  and an abstract root type: each per-root outcome of the parallel dispatch
  is a `WellResult` (skip exception / other exception / success value).
-/

deriving instance DecidableEq for Except

/-- A possible Python exception, by kind. -/
inductive PyErr where
  | attrError
  | valueError
  | typeError
  | indexError
deriving DecidableEq, Repr

/-! ## Batch post-processing (`WellBatch._filter_assemble`) -/

/-- Outcome of running one dispatched action on one root well, as collected by
`inbatch_parallel`: the root raised `SkipWellException`, raised some other
exception, or returned a new root value. -/
inductive WellResult (α : Type) where
  | skipExc (msg : String)
  | failExc (msg : String)
  | ok (w : α)
deriving DecidableEq, Repr

/-- The test `isinstance(res, SkipWellException)` — the skip mask entry for one result. -/
def WellResult.isSkip {α : Type} : WellResult α → Bool
  | .skipExc _ => true
  | _ => false

/-- The `any_action_failed` membership: the result is an exception that is not a
skip (after skips are filtered out, only these make the check fire). -/
def WellResult.isFail {α : Type} : WellResult α → Bool
  | .failExc _ => true
  | _ => false

/-- The value `str(res)`: the message of an exception result (a success value never has
its message taken in `_filter_assemble`). -/
def WellResult.msg {α : Type} : WellResult α → String
  | .skipExc m => m
  | .failExc m => m
  | .ok _ => ""

/-- The success value of a result, if any. -/
def WellResult.getOk {α : Type} : WellResult α → Option α
  | .ok w => some w
  | _ => none

/-- The observable state of a `WellBatch`: its identifier index (`self.index`,
an ordered duplicate-free sequence) and the same-order array `self.wells`. -/
structure WellBatch (ι α : Type) where
  indices : List ι
  wells : List α
deriving DecidableEq, Repr

/-- An exception raised by `_filter_assemble` itself. -/
inductive BatchError where
  | skipBatch (msg : String)
  | runtimeError (msg : String)
  | indexError
deriving DecidableEq, Repr

/-- The method `WellBatch._filter_assemble(self, results)`, lines 76-88 of
`well_batch.py`.  `results` is the per-root outcome list in original index
order.  Faithful to the source order of effects:
1. `skip_mask` and `sum(skip_mask) == len(self)` — all-skip check; raises
   `SkipBatchException(str(results[0]))` (an `IndexError` on an empty batch);
2. drop skip results; `any_action_failed` — raises
   `RuntimeError("Could not assemble the batch")`;
3. otherwise commit: `self.index` becomes the subset of identifiers whose
   result was not a skip, `self.wells` the surviving results. -/
def filter_assemble {ι α : Type} (b : WellBatch ι α)
    (results : List (WellResult α)) : Except BatchError (WellBatch ι α) :=
  if results.countP (fun r => r.isSkip) = b.indices.length then
    match results with
    | [] => .error .indexError
    | r :: _ => .error (.skipBatch r.msg)
  else
    if (results.filter (fun r => !r.isSkip)).any (fun r => r.isFail) then
      .error (.runtimeError "Could not assemble the batch")
    else
      .ok { indices := (b.indices.zip results).filterMap
              (fun p => if p.2.isSkip then none else some p.1)
            wells := (results.filter (fun r => !r.isSkip)).filterMap (fun r => r.getOk) }

/-- Imperative wrapper: in the source, the two `raise` statements come before
the assignments to `self.index` and `self.wells`, so on an exception the batch
state is exactly the pre-dispatch state. -/
def filter_assemble_run {ι α : Type} (b : WellBatch ι α)
    (results : List (WellResult α)) : WellBatch ι α × Option BatchError :=
  match filter_assemble b results with
  | .ok b' => (b', none)
  | .error e => (b, some e)

/-! ## The `Well` tree -/

/-- A `WellSegment` leaf, reduced to what the core reads from it:
its depth interval (`meta.json` keys `depth_from`, `depth_to`). -/
structure Segment where
  depth_from : ℚ
  depth_to : ℚ
deriving DecidableEq, Repr

/-- Python's `segment.length` property: `depth_to - depth_from`. -/
def Segment.len (s : Segment) : ℚ := s.depth_to - s.depth_from

/-- A node of the well tree: either a `WellSegment` leaf or a `Well` whose
`segments` attribute is an ordered list of child trees. -/
inductive WTree where
  | seg (s : Segment)
  | well (segments : List WTree)
deriving Repr

/-- The test `isinstance(item, WellSegment)`. -/
def WTree.isSeg : WTree → Bool
  | .seg _ => true
  | .well _ => false

mutual
/-- Boolean equality on trees (used to derive decidable equality, which the
nested inductive does not get automatically). -/
def WTree.beq : WTree → WTree → Bool
  | .seg a, .seg b => a == b
  | .well cs, .well ds => WTree.beqL cs ds
  | _, _ => false
/-- Boolean equality on child lists. -/
def WTree.beqL : List WTree → List WTree → Bool
  | [], [] => true
  | c :: cs, d :: ds => WTree.beq c d && WTree.beqL cs ds
  | _, _ => false
end

mutual
theorem WTree.beq_iff : ∀ t u : WTree, WTree.beq t u = true ↔ t = u
  | .seg a, .seg b => by simp [WTree.beq]
  | .seg _, .well _ => by simp [WTree.beq]
  | .well _, .seg _ => by simp [WTree.beq]
  | .well cs, .well ds => by
      simp only [WTree.beq, WTree.well.injEq]
      exact WTree.beqL_iff cs ds
theorem WTree.beqL_iff : ∀ cs ds : List WTree, WTree.beqL cs ds = true ↔ cs = ds
  | [], [] => by simp [WTree.beqL]
  | [], _ :: _ => by simp [WTree.beqL]
  | _ :: _, [] => by simp [WTree.beqL]
  | c :: cs, d :: ds => by
      simp only [WTree.beqL, Bool.and_eq_true, List.cons.injEq]
      exact and_congr (WTree.beq_iff c d) (WTree.beqL_iff cs ds)
end

instance : DecidableEq WTree := fun t u => decidable_of_iff _ (WTree.beq_iff t u)

/-- Induction over well trees: to prove `P` everywhere it suffices to prove it
for leaves and for a node given it for every child. -/
theorem WTree.ind {P : WTree → Prop} (hseg : ∀ s, P (.seg s))
    (hwell : ∀ cs, (∀ c ∈ cs, P c) → P (.well cs)) : ∀ t, P t
  | .seg s => hseg s
  | .well cs => hwell cs (fun c hc =>
      have : sizeOf c < sizeOf (WTree.well cs) := by
        have h1 : sizeOf c < sizeOf cs := List.sizeOf_lt_of_mem hc
        simp only [WTree.well.sizeOf_spec]
        omega
      WTree.ind hseg hwell c)
termination_by t => sizeOf t

/-- The property `Well.tree_depth` (well.py lines 93-101): 2 when all children are
`WellSegment` instances (vacuously true when `segments` is empty), otherwise
`segments[0].tree_depth + 1`.  Reading `tree_depth` on a `WellSegment` is an
`AttributeError`; `segments[0]` on an empty list is an `IndexError`
(unreachable: the all-segments test is true on an empty list). -/
def tree_depth : WTree → Except PyErr Nat
  | .seg _ => .error .attrError
  | .well cs =>
    if cs.all WTree.isSeg then .ok 2
    else match cs with
      | [] => .error .indexError
      | c :: _ => do
        let d ← tree_depth c
        .ok (d + 1)

mutual
/-- The method `Well.iter_level(level)` (well.py lines 131-151): normalize a negative
level by adding `tree_depth`; raise `ValueError` when the normalized level is
negative or exceeds `tree_depth`; return `[self]` at level 0, `segments` at
level 1, and otherwise the concatenation of the children's `iter_level(level-1)`.
Calling it on a `WellSegment` is an `AttributeError`. -/
def iter_level : WTree → Int → Except PyErr (List WTree)
  | .seg _, _ => .error .attrError
  | .well cs, level => do
    let td ← tree_depth (.well cs)
    let lvl : Int := if level ≥ 0 then level else (td : Int) + level
    if lvl < 0 ∨ lvl > (td : Int) then .error .valueError
    else if lvl = 0 then .ok [.well cs]
    else if lvl = 1 then .ok cs
    else iter_levelL cs (lvl - 1)
/-- The comprehension `[item for well in self for item in well.iter_level(level - 1)]`:
left-to-right, first exception wins. -/
def iter_levelL : List WTree → Int → Except PyErr (List WTree)
  | [], _ => .ok []
  | c :: rest, lvl => do
    let xs ← iter_level c lvl
    let ys ← iter_levelL rest lvl
    .ok (xs ++ ys)
end

/-- The property `Well.n_segments` (well.py lines 118-121): `len(self.iter_level())`, with
`iter_level`'s default level `-1`. -/
def n_segments (t : WTree) : Except PyErr Nat :=
  (iter_level t (-1)).map List.length

mutual
/-- The property `Well.depth_from` (well.py lines 108-111): `min([well.depth_from for well
in self])`; `min` of an empty list raises `ValueError`.  On a `WellSegment`
the attribute is the stored value. -/
def depth_from : WTree → Except PyErr ℚ
  | .seg s => .ok s.depth_from
  | .well cs => do
    let ds ← depth_fromL cs
    match ds with
    | [] => .error .valueError
    | d :: rest => .ok (rest.foldl min d)
/-- The comprehension `[well.depth_from for well in self]`. -/
def depth_fromL : List WTree → Except PyErr (List ℚ)
  | [] => .ok []
  | c :: rest => do
    let d ← depth_from c
    let ds ← depth_fromL rest
    .ok (d :: ds)
end

mutual
/-- The property `Well.depth_to` (well.py lines 113-116): `max([well.depth_to for well in
self])`. -/
def depth_to : WTree → Except PyErr ℚ
  | .seg s => .ok s.depth_to
  | .well cs => do
    let ds ← depth_toL cs
    match ds with
    | [] => .error .valueError
    | d :: rest => .ok (rest.foldl max d)
/-- The comprehension `[well.depth_to for well in self]`. -/
def depth_toL : List WTree → Except PyErr (List ℚ)
  | [] => .ok []
  | c :: rest => do
    let d ← depth_to c
    let ds ← depth_toL rest
    .ok (d :: ds)
end

/-- The `length` of a node: `Well.length` (well.py lines 103-106) is
`self.depth_to - self.depth_from` (`depth_to` evaluated first); on a
`WellSegment` it is the leaf's own length attribute. -/
def lengthE : WTree → Except PyErr ℚ
  | .seg s => .ok s.len
  | .well cs => do
    let b ← depth_to (.well cs)
    let a ← depth_from (.well cs)
    .ok (b - a)

mutual
/-- The `WellSegment` leaves of a tree, in left-to-right order. -/
def leafSegs : WTree → List Segment
  | .seg s => [s]
  | .well cs => leafSegsL cs
/-- Leaves of a forest, in order. -/
def leafSegsL : List WTree → List Segment
  | [] => []
  | c :: rest => leafSegs c ++ leafSegsL rest
end

/-- Number of `WellSegment` leaves actually present in a tree. -/
def leafCount (t : WTree) : Nat := (leafSegs t).length

mutual
/-- The method `Well.prune` (well.py lines 153-166):
`self.segments = [well for well in self if isinstance(well, WellSegment) or
well.n_segments > 0]`, then `well.prune()` on every remaining `Well` child,
then `return self`.  The filter conditions are evaluated left to right before
any recursive pruning (`keepFlags`), mirroring the source's two passes. -/
def prune : WTree → Except PyErr WTree
  | .seg _ => .error .attrError
  | .well cs => do
    let flags ← keepFlags cs
    let cs' ← pruneMasked cs flags
    .ok (.well cs')
/-- The filter conditions `isinstance(well, WellSegment) or well.n_segments > 0`,
one boolean per child, left to right. -/
def keepFlags : List WTree → Except PyErr (List Bool)
  | [] => .ok []
  | c :: rest => do
    let k ← match c with
      | .seg _ => Except.ok true
      | .well cs' => do
        let n ← n_segments (.well cs')
        Except.ok (decide (0 < n))
    let ks ← keepFlags rest
    .ok (k :: ks)
/-- Keep the flagged children and recursively prune the kept `Well` children,
left to right. -/
def pruneMasked : List WTree → List Bool → Except PyErr (List WTree)
  | [], _ => .ok []
  | _ :: _, [] => .ok []
  | c :: rest, k :: ks =>
    if k then do
      let c' ← match c with
        | .seg s => Except.ok (WTree.seg s)
        | .well cs' => prune (.well cs')
      let tail ← pruneMasked rest ks
      .ok (c' :: tail)
    else pruneMasked rest ks
end

/-- The method `Well.copy` (well.py lines 168-176): `copy(self)` — a shallow copy.  In
this model a `Well` carries only its `segments`, so a shallow copy is the
same value; the copy matters in the source because the caller reassigns the
copy's `segments` without touching the original's. -/
def Well.copy (t : WTree) : WTree := t

/-! ## The capability dispatcher (`SegmentDelegatingMeta._make_delegator`) -/

/-- What one child returns from a delegated operation: `res` is either a
single item or a list (`if not isinstance(res, list): res = [res]`). -/
inductive DelegRes where
  | single (t : WTree)
  | listRes (ts : List WTree)

/-- The normalization `if not isinstance(res, list): res = [res]` applied to a
child's result before `results.extend(res)`. -/
def DelegRes.toList : DelegRes → List WTree
  | .single t => [t]
  | .listRes ts => ts

/-- The `results` accumulator of the delegator loop (well.py lines 31-36):
iterate over the children in order, call the operation on each, normalize to a
list, and `extend` the accumulator. -/
def delegAccum (f : WTree → DelegRes) : List WTree → List WTree
  | [] => []
  | c :: rest => (f c).toList ++ delegAccum f rest

/-- The synthesized delegator (well.py lines 27-40) for an operation whose
per-child behaviour is `f`: run the accumulator loop over `self`'s children,
take a shallow copy of `self` (`Well.copy`) and reassign the copy's
`segments` to the accumulated list.  A `Well` is modelled by its `segments`
alone, so the copy with reassigned children is `WTree.well` of the results;
the input tree itself is not modified.  Delegated operations exist only on
`Well` (they are synthesized from `Well`'s abstract-method set). -/
def delegator (f : WTree → DelegRes) : WTree → Except PyErr WTree
  | .seg _ => .error .attrError
  | .well cs =>
    match Well.copy (.well cs) with
    | _ => .ok (.well (delegAccum f cs))

/-! ## Regularity predicates

The tree-shaping operations of the source build trees in which every leaf
sits at the same depth: the constructor makes `Well([WellSegment(...)])`
(depth 2), and each shaping call rewrites all the parents-of-leaves
uniformly.  `reg d t` states that shape: at nominal depth 2 all children are
`WellSegment`s (possibly none); at nominal depth `d ≥ 3` the children are a
non-empty list of `reg (d-1)` wells.  `fullReg` additionally requires the
parents-of-leaves to be non-empty. -/

mutual
/-- Depth-regular tree of nominal depth `d` (empty parents-of-leaves allowed). -/
def reg : Nat → WTree → Bool
  | 2, .well cs => cs.all WTree.isSeg
  | d + 3, .well cs => !cs.isEmpty && regL (d + 2) cs
  | _, _ => false
/-- All members of a forest are `reg d`. -/
def regL : Nat → List WTree → Bool
  | _, [] => true
  | d, c :: rest => reg d c && regL d rest
end

mutual
/-- Depth-regular tree of nominal depth `d` with every node non-empty. -/
def fullReg : Nat → WTree → Bool
  | 2, .well cs => !cs.isEmpty && cs.all WTree.isSeg
  | d + 3, .well cs => !cs.isEmpty && fullRegL (d + 2) cs
  | _, _ => false
/-- All members of a forest are `fullReg d`. -/
def fullRegL : Nat → List WTree → Bool
  | _, [] => true
  | d, c :: rest => fullReg d c && fullRegL d rest
end

mutual
/-- No `Well` below the root has zero descendant leaves (what `prune` is meant
to establish). -/
def clean : WTree → Bool
  | .seg _ => true
  | .well cs => cleanL cs
/-- All members of a forest are non-empty-leaved wells (or leaves), recursively. -/
def cleanL : List WTree → Bool
  | [] => true
  | .seg _ :: rest => cleanL rest
  | .well cs :: rest => decide (0 < leafCount (.well cs)) && clean (.well cs) && cleanL rest
end

/-! ## Tree-shaping operations -/

mutual
/-- Functional rendering of `wells = self.iter_level(k); for well in wells:
well.segments = ...`: apply the rewrite `g` to every node at level `k`
(`iter_level` visits those nodes left to right and the rewrites touch disjoint
subtrees, so the in-place mutation is a rebuild).  Reaching a `WellSegment`
above the target level is the `AttributeError` that `iter_level`'s recursion
would raise. -/
def mapAtLevelM : Nat → (WTree → Except PyErr WTree) → WTree → Except PyErr WTree
  | 0, g, t => g t
  | _ + 1, _, .seg _ => .error .attrError
  | k + 1, g, .well cs => do
    let cs' ← mapAtLevelL k g cs
    .ok (.well cs')
/-- Apply `mapAtLevelM` over a forest, left to right. -/
def mapAtLevelL : Nat → (WTree → Except PyErr WTree) → List WTree → Except PyErr (List WTree)
  | _, _, [] => .ok []
  | k, g, c :: rest => do
    let c' ← mapAtLevelM k g c
    let rest' ← mapAtLevelL k g rest
    .ok (c' :: rest')
end

/-- The per-parent rewrite of `create_segments`/`crop` (well.py lines 218-223
and 246-252): `well.segments = [Well(segments=segment.op(...)) for segment in
well]`, where `segment.op` is the leaf collaborator `f` returning a list of
new leaves.  Calling the leaf operation on a non-leaf child (possible only on
non-regular trees) leaves the model: `typeError`. -/
def splitParent (f : Segment → List Segment) : WTree → Except PyErr WTree
  | .seg _ => .error .typeError
  | .well cs => do
    let cs' ← cs.mapM (fun c =>
      match c with
      | .seg s => Except.ok (WTree.well ((f s).map WTree.seg))
      | .well _ => Except.error PyErr.typeError)
    .ok (.well cs')

/-- The method `Well.create_segments(src, connected)` (well.py lines 201-223) with the
leaf collaborator `WellSegment.create_segments` abstracted as
`f : Segment → List Segment`: rewrite every parent-of-leaves
(`iter_level(-2)`, i.e. level `tree_depth - 2`) with `splitParent f`. -/
def create_segments (f : Segment → List Segment) (t : WTree) : Except PyErr WTree := do
  let d ← tree_depth t
  mapAtLevelM (d - 2) (splitParent f) t

/-- The method `Well.crop(length, step, drop_last)` (well.py lines 225-252) with the leaf
collaborator `WellSegment.crop` abstracted as `f : Segment → List Segment`
(the length/step/drop_last arguments are already applied inside `f`). -/
def crop (f : Segment → List Segment) (t : WTree) : Except PyErr WTree := do
  let d ← tree_depth t
  mapAtLevelM (d - 2) (splitParent f) t

/-- The comprehension `[segment for segment in well if segment.length >
min_length]`, left to right (`segment.length` may itself raise on an empty
`Well` child). -/
def filterLong (minLen : ℚ) : List WTree → Except PyErr (List WTree)
  | [] => .ok []
  | c :: rest => do
    let l ← lengthE c
    let tail ← filterLong minLen rest
    .ok (if minLen < l then c :: tail else tail)

/-- The per-parent rewrite of `drop_short_segments`. -/
def dropShortParent (minLen : ℚ) : WTree → Except PyErr WTree
  | .seg _ => .error .typeError
  | .well cs => do
    let kept ← filterLong minLen cs
    .ok (.well kept)

/-- The method `Well.drop_short_segments(min_length)` (well.py lines 295-299): keep, at
every parent-of-leaves, the segments with `length > min_length`, then
`return self.prune()`. -/
def drop_short_segments (minLen : ℚ) (t : WTree) : Except PyErr WTree := do
  let d ← tree_depth t
  let t' ← mapAtLevelM (d - 2) (dropShortParent minLen) t
  prune t'

/-! ## `Well.random_crop`

`Well.random_crop(length, n_crops)` (well.py lines 254-285) makes two
weighted random draws with `np.random.choice` and `Counter`:
stage 1 draws `n_crops` parents-of-leaves (with replacement, weight = sum of
child lengths), stage 2 distributes each selected parent's count over its
leaf children (with replacement, weight = leaf length).  The model abstracts
the two draws into `alloc`: for each parent-of-leaves, in `iter_level(-2)`
(left-to-right) order, the list of crop counts per leaf child.  A parent is
in the stage-1 `Counter` iff its total count is positive; a leaf is in the
stage-2 `Counter` iff its count is positive (`Counter` iteration order — the
order of first draw — is abstracted to child order; the claims proved about
this function are order-independent).  The leaf collaborator
`WellSegment.random_crop(length, k)` is abstracted as `fRC : Segment → Nat →
List Segment` with the crop length already applied. -/

/-- The comprehension `[segment.length for segment in item]` (left to right,
first exception wins): each stage-1 or stage-2 weight entry. -/
def lengthsL : List WTree → Except PyErr (List ℚ)
  | [] => .ok []
  | c :: rest => do
    let l ← lengthE c
    let ls ← lengthsL rest
    .ok (l :: ls)

/-- One stage-1 weight: `sum([segment.length for segment in item])` for an
item of `iter_level(-2)`.  Iterating a `WellSegment` item leaves the model
(`typeError`). -/
def sumChildLengths : WTree → Except PyErr ℚ
  | .seg _ => .error .typeError
  | .well cs => do
    let ls ← lengthsL cs
    .ok ls.sum

/-- The stage-1 weight array
`p = np.array([sum([segment.length for segment in item]) for item in wells])`,
computed eagerly for every item at level `-2` before any draw or rewrite. -/
def weightsL : List WTree → Except PyErr (List ℚ)
  | [] => .ok []
  | w :: rest => do
    let q ← sumChildLengths w
    let qs ← weightsL rest
    .ok (q :: qs)

/-- One parent's rewrite: if the parent was drawn (positive total), compute
the stage-2 weights `p = np.array([item.length for item in well])`, then
replace its children by one `Well(segments=segment.random_crop(length, k))`
per drawn leaf; otherwise `well.segments = []`. -/
def rcParent (fRC : Segment → Nat → List Segment) : WTree → List Nat → Except PyErr WTree
  | .seg _, _ => .error .typeError
  | .well cs, ks =>
    if 0 < ks.sum then do
      let _ ← lengthsL cs
      let cs' ← ((cs.zip ks).filter (fun p => 0 < p.2)).mapM (fun p =>
        match p.1 with
        | .seg s => Except.ok (WTree.well ((fRC s p.2).map WTree.seg))
        | .well _ => Except.error PyErr.typeError)
      .ok (.well cs')
    else .ok (.well [])

mutual
/-- Walk to the parents-of-leaves (level `k`, left to right, as `iter_level`
visits them), rewriting each with `rcParent` and consuming its entry of
`alloc`. -/
def rcWalk (fRC : Segment → Nat → List Segment) :
    Nat → List (List Nat) → WTree → Except PyErr (WTree × List (List Nat))
  | 0, alloc, t =>
    match alloc with
    | [] => .error .indexError
    | ks :: rest => do
      let p ← rcParent fRC t ks
      .ok (p, rest)
  | _ + 1, _, .seg _ => .error .attrError
  | k + 1, alloc, .well cs => do
    let pr ← rcWalkL fRC k alloc cs
    .ok (.well pr.1, pr.2)
/-- Run `rcWalk` over a forest, threading the remaining allocation left to right. -/
def rcWalkL (fRC : Segment → Nat → List Segment) :
    Nat → List (List Nat) → List WTree → Except PyErr (List WTree × List (List Nat))
  | _, alloc, [] => .ok ([], alloc)
  | k, alloc, c :: rest => do
    let pr ← rcWalk fRC k alloc c
    let qr ← rcWalkL fRC k pr.2 rest
    .ok (pr.1 :: qr.1, qr.2)
end

/-- The method `Well.random_crop` with the draws abstracted as `alloc` (see above):
collect `wells = self.iter_level(-2)`, compute the stage-1 weight array
(whose exceptions abort the call before any rewrite — the probability
normalization `p/sum(p)` and the draw itself stay abstracted), rewrite the
parents-of-leaves, then `return self.prune()`. -/
def random_crop (fRC : Segment → Nat → List Segment) (alloc : List (List Nat))
    (t : WTree) : Except PyErr WTree := do
  let d ← tree_depth t
  let wells ← iter_level t (-2)
  let _ ← weightsL wells
  let pr ← rcWalk fRC (d - 2) alloc t
  prune pr.1

/-! ## Spec-level prune and auxiliary predicates -/

mutual
/-- Modelled from the spec: "recursively removes, bottom-up, any non-leaf
child whose leaf count is zero" — the reference prune used to compare with the
code's `prune` (which tests `n_segments > 0`, not the leaf count). -/
def specPrune : WTree → WTree
  | .seg s => .seg s
  | .well cs => .well (specPruneL cs)
/-- The `specPrune` filter over a child list. -/
def specPruneL : List WTree → List WTree
  | [] => []
  | .seg s :: rest => .seg s :: specPruneL rest
  | .well cs :: rest =>
    if 0 < leafCount (.well cs) then specPrune (.well cs) :: specPruneL rest
    else specPruneL rest
end

/-- Number of direct children (`len(self.segments)`); 0 on a leaf. -/
def childCount : WTree → Nat
  | .seg _ => 0
  | .well cs => cs.length

/-- A node at the parents-of-leaves level after the `random_crop` rewrite:
either cleared (`segments = []`) or a non-empty list of wrappers, each a
`Well` with a non-empty all-segment child list. -/
def isWrapper : WTree → Bool
  | .well (c :: cs) => (c :: cs).all WTree.isSeg
  | _ => false

mutual
/-- Shape of a subtree rooted `k` levels above the rewritten
parents-of-leaves after the `random_crop` rewrite. -/
def rcShape : Nat → WTree → Bool
  | 0, .well cs => cs.isEmpty || cs.all isWrapper
  | _ + 1, .seg _ => false
  | k + 1, .well cs => !cs.isEmpty && rcShapeL k cs
  | _, .seg _ => false
/-- All members of a forest are `rcShape k`. -/
def rcShapeL : Nat → List WTree → Bool
  | _, [] => true
  | k, c :: rest => rcShape k c && rcShapeL k rest
end

mutual
/-- The nodes at level `k` of a tree, left to right — the list
`self.iter_level(k)` traverses, used to align `alloc` with the
parents-of-leaves. -/
def nodesAt : Nat → WTree → List WTree
  | 0, t => [t]
  | _ + 1, .seg _ => []
  | k + 1, .well cs => nodesAtL k cs
/-- Collect `nodesAt` over a forest. -/
def nodesAtL : Nat → List WTree → List WTree
  | _, [] => []
  | k, c :: rest => nodesAt k c ++ nodesAtL k rest
end

/-- Alignment of `alloc` with a parent list: one entry per parent, one count per
child of that parent. -/
def alignedB : List WTree → List (List Nat) → Bool
  | [], [] => true
  | p :: ps, ks :: kss => childCount p == ks.length && alignedB ps kss
  | _, _ => false

/-! ## Basic lemmas -/

theorem foldl_min_le (vs : List ℚ) : ∀ (v : ℚ), ∀ x ∈ v :: vs, vs.foldl min v ≤ x := by
  induction vs with
  | nil => intro v x hx; simp at hx; simp [hx]
  | cons w rest ih =>
    intro v x hx
    simp only [List.foldl_cons]
    have hle : rest.foldl min (min v w) ≤ min v w := ih (min v w) (min v w) (by simp)
    rcases List.mem_cons.mp hx with h | hx'
    · rw [h]; exact le_trans hle (min_le_left v w)
    · rcases List.mem_cons.mp hx' with h | h
      · rw [h]; exact le_trans hle (min_le_right v w)
      · exact ih (min v w) x (List.mem_cons_of_mem _ h)

theorem foldl_min_mem (vs : List ℚ) : ∀ (v : ℚ), vs.foldl min v ∈ v :: vs := by
  induction vs with
  | nil => intro v; simp
  | cons w rest ih =>
    intro v
    have hm := ih (min v w)
    rcases List.mem_cons.mp hm with h | h
    · rcases min_choice v w with hc | hc
      · simp only [List.foldl_cons]
        rw [h, hc]; simp
      · simp only [List.foldl_cons]
        rw [h, hc]; simp
    · simp only [List.foldl_cons]
      exact List.mem_cons_of_mem _ (List.mem_cons_of_mem _ h)

theorem foldl_max_ge (vs : List ℚ) : ∀ (v : ℚ), ∀ x ∈ v :: vs, x ≤ vs.foldl max v := by
  induction vs with
  | nil => intro v x hx; simp at hx; simp [hx]
  | cons w rest ih =>
    intro v x hx
    simp only [List.foldl_cons]
    have hge : max v w ≤ rest.foldl max (max v w) := ih (max v w) (max v w) (by simp)
    rcases List.mem_cons.mp hx with h | hx'
    · rw [h]; exact le_trans (le_max_left v w) hge
    · rcases List.mem_cons.mp hx' with h | h
      · rw [h]; exact le_trans (le_max_right v w) hge
      · exact ih (max v w) x (List.mem_cons_of_mem _ h)

theorem foldl_max_mem (vs : List ℚ) : ∀ (v : ℚ), vs.foldl max v ∈ v :: vs := by
  induction vs with
  | nil => intro v; simp
  | cons w rest ih =>
    intro v
    have hm := ih (max v w)
    rcases List.mem_cons.mp hm with h | h
    · rcases max_choice v w with hc | hc
      · simp only [List.foldl_cons]
        rw [h, hc]; simp
      · simp only [List.foldl_cons]
        rw [h, hc]; simp
    · simp only [List.foldl_cons]
      exact List.mem_cons_of_mem _ (List.mem_cons_of_mem _ h)

theorem reg_isWell : ∀ {d : Nat} {t : WTree}, reg d t = true → ∃ cs, t = .well cs := by
  intro d t h
  cases t with
  | well cs => exact ⟨cs, rfl⟩
  | seg s => rcases d with _ | _ | _ | e <;> simp [reg] at h

theorem regL_eq_forall : ∀ {d : Nat} {cs : List WTree},
    regL d cs = true ↔ ∀ c ∈ cs, reg d c = true := by
  intro d cs
  induction cs with
  | nil => simp [regL]
  | cons a rest ih => simp [regL, ih]

theorem fullRegL_eq_forall : ∀ {d : Nat} {cs : List WTree},
    fullRegL d cs = true ↔ ∀ c ∈ cs, fullReg d c = true := by
  intro d cs
  induction cs with
  | nil => simp [fullRegL]
  | cons a rest ih => simp [fullRegL, ih]

theorem rcShapeL_eq_forall : ∀ {k : Nat} {cs : List WTree},
    rcShapeL k cs = true ↔ ∀ c ∈ cs, rcShape k c = true := by
  intro k cs
  induction cs with
  | nil => simp [rcShapeL]
  | cons a rest ih => simp [rcShapeL, ih]

theorem fullReg_reg : ∀ t : WTree, ∀ d : Nat, fullReg d t = true → reg d t = true := by
  intro t
  induction t using WTree.ind with
  | hseg s => intro d h; rcases d with _ | _ | _ | e <;> simp [fullReg] at h
  | hwell cs ih =>
    intro d h
    rcases d with _ | _ | _ | e
    · simp [fullReg] at h
    · simp [fullReg] at h
    · simp only [fullReg, Bool.and_eq_true] at h
      simp [reg, h.2]
    · simp only [fullReg, Bool.and_eq_true] at h
      have hl : regL (e + 2) cs = true :=
        regL_eq_forall.mpr (fun c hc =>
          ih c hc _ (fullRegL_eq_forall.mp h.2 c hc))
      simp [reg, h.1, hl]

theorem tree_depth_cons (c : WTree) (rest : List WTree)
    (h : ((c :: rest).all WTree.isSeg) = false) :
    tree_depth (.well (c :: rest)) = (tree_depth c).bind (fun d => .ok (d + 1)) := by
  simp only [tree_depth]
  rw [if_neg (by simp [h])]
  rfl

theorem tree_depth_reg : ∀ t : WTree, ∀ d : Nat, reg d t = true → tree_depth t = .ok d := by
  intro t
  induction t using WTree.ind with
  | hseg s => intro d h; rcases d with _ | _ | _ | e <;> simp [reg] at h
  | hwell cs ih =>
    intro d h
    rcases d with _ | _ | _ | e
    · simp [reg] at h
    · simp [reg] at h
    · simp only [reg] at h
      unfold tree_depth
      rw [if_pos h]
    · simp only [reg, Bool.and_eq_true] at h
      obtain ⟨hne, hl⟩ := h
      match cs, hne with
      | c :: rest, _ =>
        have hc : reg (e + 2) c = true :=
          regL_eq_forall.mp hl c (List.mem_cons_self c rest)
        obtain ⟨cs', rfl⟩ := reg_isWell hc
        have hd : tree_depth (.well cs') = .ok (e + 2) :=
          ih _ (List.mem_cons_self _ rest) _ hc
        have hall : ((WTree.well cs' :: rest).all WTree.isSeg) = false := by
          simp [WTree.isSeg]
        rw [tree_depth_cons _ _ hall, hd]
        rfl

@[simp] theorem isSeg_seg (s : Segment) : (WTree.seg s).isSeg = true := rfl

@[simp] theorem isSeg_well (cs : List WTree) : (WTree.well cs).isSeg = false := rfl

theorem allSeg_map_seg (ss : List Segment) : ((ss.map WTree.seg).all WTree.isSeg) = true := by
  simp [List.all_eq_true]

theorem allSeg_eq_map : ∀ cs : List WTree,
    (cs.all WTree.isSeg) = true → cs = (leafSegsL cs).map WTree.seg := by
  intro cs
  induction cs with
  | nil => intro _; rfl
  | cons c rest ih =>
    intro h
    simp only [List.all_cons, Bool.and_eq_true] at h
    cases c with
    | seg s =>
      simp only [leafSegsL, leafSegs, List.map_append]
      rw [← ih h.2]
      rfl
    | well cs' => simp [WTree.isSeg] at h

theorem leafSegsL_map_seg (ss : List Segment) : leafSegsL (ss.map WTree.seg) = ss := by
  induction ss with
  | nil => rfl
  | cons s rest ih =>
    simp only [List.map_cons, leafSegsL, leafSegs, ih]
    rfl

theorem leafSegsL_append : ∀ xs ys : List WTree,
    leafSegsL (xs ++ ys) = leafSegsL xs ++ leafSegsL ys := by
  intro xs ys
  induction xs with
  | nil => rfl
  | cons c rest ih => simp [leafSegsL, ih]

/-- The source's level normalization
`level = level if level >= 0 else self.tree_depth + level`. -/
def normLvl (d : Nat) (level : Int) : Int :=
  if level ≥ 0 then level else (d : Int) + level

theorem iter_level_unfold (cs : List WTree) (d : Nat) (level : Int)
    (htd : tree_depth (.well cs) = .ok d) :
    iter_level (.well cs) level =
      (if normLvl d level < 0 ∨ normLvl d level > (d : Int) then .error .valueError
       else if normLvl d level = 0 then .ok [.well cs]
       else if normLvl d level = 1 then .ok cs
       else iter_levelL cs (normLvl d level - 1)) := by
  simp only [iter_level, htd, normLvl]
  rfl

theorem iter_levelL_eq_mapM : ∀ (cs : List WTree) (k : Int),
    iter_levelL cs k = (cs.mapM (fun c => iter_level c k)).map List.flatten := by
  intro cs k
  induction cs with
  | nil => rfl
  | cons c rest ih =>
    simp only [iter_levelL, List.mapM_cons]
    cases hc : iter_level c k with
    | error e => rfl
    | ok xs =>
      simp only [Except.bind, ih]
      cases hr : (rest.mapM (fun c => iter_level c k)) with
      | error e => rfl
      | ok ls => rfl

theorem reg_iter_leavesL (k : Int) : ∀ cs : List WTree,
    (∀ c ∈ cs, iter_level c k = .ok ((leafSegs c).map WTree.seg)) →
    iter_levelL cs k = .ok ((leafSegsL cs).map WTree.seg) := by
  intro cs h
  induction cs with
  | nil => rfl
  | cons c rest ih =>
    simp only [iter_levelL]
    rw [h c (by simp)]
    rw [ih (fun c hc => h c (List.mem_cons_of_mem _ hc))]
    simp only [leafSegsL, List.map_append]
    rfl

theorem reg_cases : ∀ (d : Nat) (t : WTree), reg d t = true →
    (d = 2 ∧ ∃ cs, t = .well cs ∧ (cs.all WTree.isSeg) = true) ∨
    (∃ e cs, d = e + 3 ∧ t = .well cs ∧ cs ≠ [] ∧ ∀ c ∈ cs, reg (e + 2) c = true) := by
  intro d t h
  obtain ⟨cs, rfl⟩ := reg_isWell h
  rcases d with _ | _ | _ | e
  · simp [reg] at h
  · simp [reg] at h
  · left
    exact ⟨rfl, cs, rfl, by simpa [reg] using h⟩
  · right
    simp only [reg, Bool.and_eq_true] at h
    refine ⟨e, cs, rfl, rfl, ?_, fun c hc => regL_eq_forall.mp h.2 c hc⟩
    simpa using h.1

theorem reg_iter_leaves : ∀ t : WTree, ∀ d : Nat, reg d t = true →
    iter_level t ((d : Int) - 1) = .ok ((leafSegs t).map WTree.seg) := by
  intro t
  induction t using WTree.ind with
  | hseg s =>
    intro d h
    rcases reg_cases d _ h with ⟨_, cs, hcs, _⟩ | ⟨e, cs, _, hcs, _⟩ <;> exact absurd hcs (by simp)
  | hwell cs ih =>
    intro d h
    have htd := tree_depth_reg _ _ h
    rcases reg_cases d _ h with ⟨hd2, cs', heq, hall⟩ | ⟨e, cs', hd3, heq, hne, hreg⟩
    · injection heq with heq'
      subst heq'
      rw [iter_level_unfold cs d _ htd]
      have hn : normLvl d ((d : Int) - 1) = 1 := by
        simp only [normLvl]
        rw [if_pos (by omega)]
        omega
      rw [hn]
      rw [if_neg (by omega), if_neg (by omega), if_pos rfl]
      rw [show leafSegs (WTree.well cs) = leafSegsL cs from rfl]
      exact congrArg Except.ok (allSeg_eq_map cs hall)
    · injection heq with heq'
      subst heq'
      rw [iter_level_unfold cs d _ htd]
      have hn : normLvl d ((d : Int) - 1) = (d : Int) - 1 := by
        simp only [normLvl]
        rw [if_pos (by omega)]
      rw [hn]
      rw [if_neg (by omega), if_neg (by omega), if_neg (by omega)]
      have harg : (d : Int) - 1 - 1 = ((e + 2 : Nat) : Int) - 1 := by push_cast; omega
      rw [harg]
      rw [reg_iter_leavesL _ cs (fun c hc => ih c hc (e + 2) (hreg c hc))]
      rfl

theorem iter_level_neg1_reg : ∀ t : WTree, ∀ d : Nat, reg d t = true →
    iter_level t (-1) = .ok ((leafSegs t).map WTree.seg) := by
  intro t d h
  obtain ⟨cs, rfl⟩ := reg_isWell h
  have htd := tree_depth_reg _ _ h
  have hd2 : 2 ≤ d := by
    rcases d with _ | _ | _ | e <;> simp [reg] at h <;> omega
  rw [iter_level_unfold cs d _ htd]
  have hn : normLvl d (-1) = (d : Int) - 1 := by
    simp only [normLvl]
    rw [if_neg (by omega)]
    ring
  rw [hn]
  rw [if_neg (by omega), if_neg (by omega)]
  have hleaves := reg_iter_leaves _ _ h
  rw [iter_level_unfold cs d _ htd] at hleaves
  have hn2 : normLvl d ((d : Int) - 1) = (d : Int) - 1 := by
    simp only [normLvl]
    rw [if_pos (by omega)]
  rw [hn2] at hleaves
  rw [if_neg (by omega), if_neg (by omega)] at hleaves
  by_cases h1 : (d : Int) - 1 = 1
  · rw [if_pos h1] at hleaves ⊢
    exact hleaves
  · rw [if_neg h1] at hleaves ⊢
    exact hleaves

theorem n_segments_reg : ∀ t : WTree, ∀ d : Nat, reg d t = true →
    n_segments t = .ok (leafCount t) := by
  intro t d h
  simp only [n_segments, iter_level_neg1_reg t d h, leafCount]
  simp [Except.map]

theorem specPruneL_allSeg : ∀ cs : List WTree,
    (cs.all WTree.isSeg) = true → specPruneL cs = cs := by
  intro cs
  induction cs with
  | nil => intro _; rfl
  | cons c rest ih =>
    intro h
    simp only [List.all_cons, Bool.and_eq_true] at h
    cases c with
    | seg s => simp [specPruneL, ih h.2]
    | well cs' => simp at h

theorem leafSegs_specPruneL : ∀ cs : List WTree,
    (∀ c ∈ cs, leafSegs (specPrune c) = leafSegs c) →
    leafSegsL (specPruneL cs) = leafSegsL cs := by
  intro cs h
  induction cs with
  | nil => rfl
  | cons c rest ih =>
    have ihrest := ih (fun c hc => h c (List.mem_cons_of_mem _ hc))
    cases c with
    | seg s => simp [specPruneL, leafSegsL, ihrest]
    | well cs' =>
      by_cases hpos : 0 < leafCount (.well cs')
      · simp only [specPruneL, if_pos hpos, leafSegsL]
        rw [h _ (by simp), ihrest]
      · have hz : leafSegs (WTree.well cs') = [] := by
          have h0 : (leafSegs (WTree.well cs')).length = 0 := by
            simp only [leafCount] at hpos
            omega
          exact List.length_eq_zero.mp h0
        simp only [specPruneL, if_neg hpos, leafSegsL, hz, List.nil_append]
        exact ihrest

theorem leafSegs_specPrune : ∀ t : WTree, leafSegs (specPrune t) = leafSegs t := by
  intro t
  induction t using WTree.ind with
  | hseg s => rfl
  | hwell cs ih =>
    show leafSegsL (specPruneL cs) = leafSegsL cs
    exact leafSegs_specPruneL cs ih

theorem leafCount_specPrune (t : WTree) : leafCount (specPrune t) = leafCount t := by
  simp [leafCount, leafSegs_specPrune]

theorem clean_specPruneL : ∀ cs : List WTree,
    (∀ c ∈ cs, clean (specPrune c) = true) →
    cleanL (specPruneL cs) = true := by
  intro cs h
  induction cs with
  | nil => rfl
  | cons c rest ih =>
    have ihrest := ih (fun c hc => h c (List.mem_cons_of_mem _ hc))
    cases c with
    | seg s => simpa [specPruneL, cleanL] using ihrest
    | well cs' =>
      by_cases hpos : 0 < leafCount (.well cs')
      · simp only [specPruneL, if_pos hpos]
        rw [show specPrune (WTree.well cs') = WTree.well (specPruneL cs') from rfl]
        simp only [cleanL, Bool.and_eq_true]
        refine ⟨⟨?_, ?_⟩, ihrest⟩
        · rw [show WTree.well (specPruneL cs') = specPrune (WTree.well cs') from rfl]
          rw [show leafCount (specPrune (WTree.well cs')) = leafCount (WTree.well cs') from
            leafCount_specPrune _]
          simpa using hpos
        · rw [show WTree.well (specPruneL cs') = specPrune (WTree.well cs') from rfl]
          exact h _ (by simp)
      · simp only [specPruneL, if_neg hpos]
        exact ihrest

theorem clean_specPrune : ∀ t : WTree, clean (specPrune t) = true := by
  intro t
  induction t using WTree.ind with
  | hseg s => rfl
  | hwell cs ih =>
    show cleanL (specPruneL cs) = true
    exact clean_specPruneL cs (fun c hc => ih c hc)

theorem specPruneL_no_leaves : ∀ cs : List WTree,
    leafSegsL cs = [] → specPruneL cs = [] := by
  intro cs
  induction cs with
  | nil => intro _; rfl
  | cons c rest ih =>
    intro h
    cases c with
    | seg s => simp [leafSegsL, leafSegs] at h
    | well cs' =>
      simp only [leafSegsL, List.append_eq_nil] at h
      have hz : ¬ 0 < leafCount (.well cs') := by
        simp [leafCount, h.1]
      simp only [specPruneL, if_neg hz]
      exact ih h.2

theorem specPrune_clean_id : ∀ t : WTree, clean t = true → specPrune t = t := by
  intro t
  induction t using WTree.ind with
  | hseg s => intro _; rfl
  | hwell cs ih =>
    intro h
    show WTree.well (specPruneL cs) = WTree.well cs
    refine congrArg WTree.well ?_
    replace h : cleanL cs = true := h
    induction cs with
    | nil => rfl
    | cons c rest ihl =>
      cases c with
      | seg s =>
        simp only [cleanL] at h
        simp [specPruneL, ihl (fun c hc => ih c (List.mem_cons_of_mem _ hc)) h]
      | well cs' =>
        simp only [cleanL, Bool.and_eq_true] at h
        simp only [specPruneL, if_pos (by simpa using h.1.1)]
        rw [ih _ (by simp) h.1.2]
        rw [ihl (fun c hc => ih c (List.mem_cons_of_mem _ hc)) h.2]

theorem keepFlags_allSeg : ∀ cs : List WTree,
    (cs.all WTree.isSeg) = true → keepFlags cs = .ok (cs.map fun _ => true) := by
  intro cs
  induction cs with
  | nil => intro _; rfl
  | cons c rest ih =>
    intro h
    simp only [List.all_cons, Bool.and_eq_true] at h
    cases c with
    | seg s =>
      simp only [keepFlags, ih h.2, List.map_cons]
      rfl
    | well cs' => simp at h

theorem pruneMasked_allSeg : ∀ cs : List WTree,
    (cs.all WTree.isSeg) = true →
    pruneMasked cs (cs.map fun _ => true) = .ok cs := by
  intro cs
  induction cs with
  | nil => intro _; rfl
  | cons c rest ih =>
    intro h
    simp only [List.all_cons, Bool.and_eq_true] at h
    cases c with
    | seg s =>
      simp only [List.map_cons, pruneMasked, if_true, ih h.2]
      rfl
    | well cs' => simp at h

theorem okBind {ε α β : Type} (a : α) (f : α → Except ε β) :
    (Except.ok a >>= f) = f a := rfl

theorem prune_step (cs : List WTree) (F : List Bool) (R : List WTree)
    (hkf : keepFlags cs = .ok F) (hpm : pruneMasked cs F = .ok R) :
    prune (.well cs) = .ok (.well R) := by
  simp only [prune, hkf, okBind, hpm]

theorem keepFlags_wells : ∀ cs : List WTree,
    (∀ c ∈ cs, WTree.isSeg c = false ∧ n_segments c = .ok (leafCount c)) →
    keepFlags cs = .ok (cs.map fun c => decide (0 < leafCount c)) := by
  intro cs
  induction cs with
  | nil => intro _; rfl
  | cons c rest ih =>
    intro h
    have hc := h c (by simp)
    have ihrest := ih (fun c hc => h c (List.mem_cons_of_mem _ hc))
    cases c with
    | seg s => simp at hc
    | well cs' =>
      simp only [keepFlags, hc.2, ihrest, List.map_cons, okBind]

theorem pruneMasked_wells : ∀ cs : List WTree,
    (∀ c ∈ cs, WTree.isSeg c = false ∧ prune c = .ok (specPrune c)) →
    pruneMasked cs (cs.map fun c => decide (0 < leafCount c)) = .ok (specPruneL cs) := by
  intro cs
  induction cs with
  | nil => intro _; rfl
  | cons c rest ih =>
    intro h
    have hc := h c (by simp)
    have ihrest := ih (fun c hc => h c (List.mem_cons_of_mem _ hc))
    cases c with
    | seg s => simp at hc
    | well cs' =>
      by_cases hpos : 0 < leafCount (.well cs')
      · simp only [List.map_cons, pruneMasked, decide_eq_true hpos, if_true, hc.2, ihrest,
          specPruneL, if_pos hpos, okBind]
      · simp only [List.map_cons, pruneMasked, decide_eq_false hpos, Bool.false_eq_true,
          if_false, ihrest, specPruneL, if_neg hpos]

theorem prune_eq_specPrune : ∀ t : WTree, ∀ d : Nat, reg d t = true →
    prune t = .ok (specPrune t) := by
  intro t
  induction t using WTree.ind with
  | hseg s =>
    intro d h
    rcases reg_cases d _ h with ⟨_, cs, hcs, _⟩ | ⟨e, cs, _, hcs, _⟩ <;> exact absurd hcs (by simp)
  | hwell cs ih =>
    intro d h
    rcases reg_cases d _ h with ⟨hd2, cs', heq, hall⟩ | ⟨e, cs', hd3, heq, hne, hreg⟩
    · injection heq with heq'
      subst heq'
      rw [prune_step cs _ _ (keepFlags_allSeg cs hall) (pruneMasked_allSeg cs hall)]
      rw [show specPrune (WTree.well cs) = WTree.well (specPruneL cs) from rfl]
      rw [specPruneL_allSeg cs hall]
    · injection heq with heq'
      subst heq'
      have hw : ∀ c ∈ cs, WTree.isSeg c = false := by
        intro c hc
        obtain ⟨cs'', rfl⟩ := reg_isWell (hreg c hc)
        simp
      rw [prune_step cs _ _
        (keepFlags_wells cs (fun c hc =>
          ⟨hw c hc, n_segments_reg c (e + 2) (hreg c hc)⟩))
        (pruneMasked_wells cs (fun c hc =>
          ⟨hw c hc, ih c hc (e + 2) (hreg c hc)⟩))]
      rfl

theorem specPruneL_ne_nil : ∀ cs : List WTree,
    leafSegsL cs ≠ [] → specPruneL cs ≠ [] := by
  intro cs
  induction cs with
  | nil => intro h; simp [leafSegsL] at h
  | cons c rest ih =>
    intro h
    cases c with
    | seg s => simp [specPruneL]
    | well cs' =>
      by_cases hpos : 0 < leafCount (.well cs')
      · simp [specPruneL, if_pos hpos]
      · have hz : leafSegs (WTree.well cs') = [] := by
          have h0 : (leafSegs (WTree.well cs')).length = 0 := by
            simp only [leafCount] at hpos; omega
          exact List.length_eq_zero.mp h0
        simp only [specPruneL, if_neg hpos]
        refine ih ?_
        simp only [leafSegsL, hz, List.nil_append] at h
        exact h

theorem regL_specPruneL (e : Nat) : ∀ cs : List WTree,
    (∀ c ∈ cs, WTree.isSeg c = false) →
    (∀ c ∈ cs, 0 < leafCount c → reg (e + 2) (specPrune c) = true) →
    regL (e + 2) (specPruneL cs) = true := by
  intro cs
  induction cs with
  | nil => intro _ _; rfl
  | cons c rest ih =>
    intro hw hr
    have ihrest := ih (fun c hc => hw c (List.mem_cons_of_mem _ hc))
      (fun c hc => hr c (List.mem_cons_of_mem _ hc))
    cases c with
    | seg s =>
      have hfalse := hw (WTree.seg s) (by simp)
      simp at hfalse
    | well cs' =>
      by_cases hpos : 0 < leafCount (.well cs')
      · simp only [specPruneL, if_pos hpos, regL, Bool.and_eq_true]
        exact ⟨hr _ (by simp) hpos, ihrest⟩
      · simp only [specPruneL, if_neg hpos]
        exact ihrest

theorem reg_specPrune : ∀ t : WTree, ∀ d : Nat, reg d t = true → 0 < leafCount t →
    reg d (specPrune t) = true := by
  intro t
  induction t using WTree.ind with
  | hseg s =>
    intro d h _
    rcases reg_cases d _ h with ⟨_, cs, hcs, _⟩ | ⟨e, cs, _, hcs, _⟩ <;> exact absurd hcs (by simp)
  | hwell cs ih =>
    intro d h hpos
    rcases reg_cases d _ h with ⟨hd2, cs', heq, hall⟩ | ⟨e, cs', hd3, heq, hne, hreg⟩
    · injection heq with heq'
      subst heq' hd2
      show reg 2 (WTree.well (specPruneL cs)) = true
      rw [specPruneL_allSeg cs hall]
      exact h
    · injection heq with heq'
      subst heq' hd3
      show reg (e + 3) (WTree.well (specPruneL cs)) = true
      have hw : ∀ c ∈ cs, WTree.isSeg c = false := by
        intro c hc
        obtain ⟨cs'', rfl⟩ := reg_isWell (hreg c hc)
        simp
      have hne' : specPruneL cs ≠ [] := by
        refine specPruneL_ne_nil cs ?_
        intro hz
        rw [show leafCount (WTree.well cs) = (leafSegsL cs).length from rfl, hz] at hpos
        simp at hpos
      simp only [reg, Bool.and_eq_true]
      refine ⟨by simpa using hne', ?_⟩
      exact regL_specPruneL e cs hw (fun c hc hp => ih c hc (e + 2) (hreg c hc) hp)

theorem prune_specPrune_self : ∀ t : WTree, ∀ d : Nat, reg d t = true →
    prune (specPrune t) = .ok (specPrune t) := by
  intro t d h
  by_cases hpos : 0 < leafCount t
  · have hreg' := reg_specPrune t d h hpos
    rw [prune_eq_specPrune _ d hreg']
    rw [specPrune_clean_id _ (clean_specPrune t)]
  · obtain ⟨cs, rfl⟩ := reg_isWell h
    have hz : leafSegsL cs = [] := by
      have h0 : (leafSegsL cs).length = 0 := by
        rw [show leafCount (WTree.well cs) = (leafSegsL cs).length from rfl] at hpos
        omega
      exact List.length_eq_zero.mp h0
    rw [show specPrune (WTree.well cs) = WTree.well (specPruneL cs) from rfl]
    rw [specPruneL_no_leaves cs hz]
    rfl

theorem td_ok_isWell {c : WTree} {n : Nat} (h : tree_depth c = .ok n) :
    WTree.isSeg c = false := by
  cases c with
  | seg s => simp [tree_depth] at h
  | well cs => rfl

theorem fullReg_cases : ∀ (d : Nat) (t : WTree), fullReg d t = true →
    (d = 2 ∧ ∃ cs, t = .well cs ∧ cs ≠ [] ∧ (cs.all WTree.isSeg) = true) ∨
    (∃ e cs, d = e + 3 ∧ t = .well cs ∧ cs ≠ [] ∧ ∀ c ∈ cs, fullReg (e + 2) c = true) := by
  intro d t h
  obtain ⟨cs, rfl⟩ := reg_isWell (fullReg_reg _ _ h)
  rcases d with _ | _ | _ | e
  · simp [fullReg] at h
  · simp [fullReg] at h
  · left
    simp only [fullReg, Bool.and_eq_true] at h
    exact ⟨rfl, cs, rfl, by simpa using h.1, h.2⟩
  · right
    simp only [fullReg, Bool.and_eq_true] at h
    refine ⟨e, cs, rfl, rfl, by simpa using h.1, fun c hc => fullRegL_eq_forall.mp h.2 c hc⟩

theorem mapAtLevelL_ok (k : Nat) (g : WTree → Except PyErr WTree)
    (Q : WTree → WTree → Prop) : ∀ cs : List WTree,
    (∀ c ∈ cs, ∃ c', mapAtLevelM k g c = .ok c' ∧ Q c c') →
    ∃ cs', mapAtLevelL k g cs = .ok cs' ∧ List.Forall₂ Q cs cs' := by
  intro cs
  induction cs with
  | nil => intro _; exact ⟨[], rfl, List.Forall₂.nil⟩
  | cons c rest ih =>
    intro h
    obtain ⟨c', hc', hq⟩ := h c (by simp)
    obtain ⟨cs', hcs', hall⟩ := ih (fun c hc => h c (List.mem_cons_of_mem _ hc))
    refine ⟨c' :: cs', ?_, List.Forall₂.cons hq hall⟩
    simp only [mapAtLevelL, hc', hcs', okBind]

theorem mapM_wrap (f : Segment → List Segment) : ∀ ss : List Segment,
    ((ss.map WTree.seg).mapM (fun c =>
      match c with
      | .seg s => Except.ok (WTree.well ((f s).map WTree.seg))
      | .well _ => Except.error PyErr.typeError)) =
    .ok (ss.map (fun s => WTree.well ((f s).map WTree.seg))) := by
  intro ss
  induction ss with
  | nil => rfl
  | cons s rest ih =>
    simp only [List.map_cons, List.mapM_cons, ih]
    rfl

theorem splitParent_allSeg (f : Segment → List Segment) (cs : List WTree)
    (hall : (cs.all WTree.isSeg) = true) :
    splitParent f (.well cs) =
      .ok (.well ((leafSegsL cs).map (fun s => WTree.well ((f s).map WTree.seg)))) := by
  conv_lhs => rw [allSeg_eq_map cs hall]
  simp only [splitParent, mapM_wrap f (leafSegsL cs), okBind]

theorem tree_depth_wrapped (f : Segment → List Segment) (ss : List Segment)
    (hne : ss ≠ []) :
    tree_depth (.well (ss.map (fun s => WTree.well ((f s).map WTree.seg)))) = .ok 3 := by
  match ss, hne with
  | s :: rest, _ =>
    simp only [List.map_cons]
    rw [tree_depth_cons _ _ (by simp)]
    have h2 : tree_depth (WTree.well ((f s).map WTree.seg)) = .ok 2 := by
      unfold tree_depth
      rw [if_pos (allSeg_map_seg (f s))]
    rw [h2]
    rfl

theorem leafSegsL_ne_nil_of_allSeg (cs : List WTree) (hne : cs ≠ [])
    (hall : (cs.all WTree.isSeg) = true) : leafSegsL cs ≠ [] := by
  intro hz
  rw [allSeg_eq_map cs hall, hz] at hne
  simp at hne

theorem split_fullReg (f : Segment → List Segment) : ∀ t : WTree, ∀ d : Nat,
    fullReg d t = true →
    ∃ t', mapAtLevelM (d - 2) (splitParent f) t = .ok t' ∧ tree_depth t' = .ok (d + 1) := by
  intro t
  induction t using WTree.ind with
  | hseg s =>
    intro d h
    rcases fullReg_cases d _ h with ⟨_, cs, hcs, _⟩ | ⟨e, cs, _, hcs, _⟩ <;>
      exact absurd hcs (by simp)
  | hwell cs ih =>
    intro d h
    rcases fullReg_cases d _ h with ⟨hd2, cs', heq, hne, hall⟩ | ⟨e, cs', hd3, heq, hne, hreg⟩
    · injection heq with heq'
      subst heq' hd2
      refine ⟨.well ((leafSegsL cs).map (fun s => WTree.well ((f s).map WTree.seg))), ?_, ?_⟩
      · show mapAtLevelM 0 (splitParent f) (.well cs) = _
        show splitParent f (.well cs) = _
        exact splitParent_allSeg f cs hall
      · exact tree_depth_wrapped f _ (leafSegsL_ne_nil_of_allSeg cs hne hall)
    · injection heq with heq'
      subst heq' hd3
      obtain ⟨cs'', hcs'', hall2⟩ := mapAtLevelL_ok e (splitParent f)
        (fun c c' => tree_depth c' = .ok (e + 3)) cs
        (fun c hc => by
          obtain ⟨c', hc', htd⟩ := ih c hc (e + 2) (hreg c hc)
          exact ⟨c', by simpa using hc', by simpa using htd⟩)
      refine ⟨.well cs'', ?_, ?_⟩
      · show mapAtLevelM (e + 1) (splitParent f) (.well cs) = _
        simp only [mapAtLevelM, hcs'', okBind]
      · match cs, cs'', hall2, hne with
        | _ :: _, c₀' :: rest', List.Forall₂.cons hq hrest, _ =>
          rw [tree_depth_cons _ _ (by simp [td_ok_isWell hq])]
          rw [hq]
          rfl

theorem filterLong_allSeg (m : ℚ) : ∀ ss : List Segment,
    filterLong m (ss.map WTree.seg) =
      .ok ((ss.filter (fun s => decide (m < s.len))).map WTree.seg) := by
  intro ss
  induction ss with
  | nil => rfl
  | cons s rest ih =>
    simp only [List.map_cons, filterLong]
    rw [show lengthE (WTree.seg s) = .ok s.len from rfl]
    simp only [okBind, ih, List.filter_cons]
    by_cases hm : m < s.len
    · simp only [decide_eq_true hm, if_true, List.map_cons]
      rw [if_pos hm]
    · simp only [decide_eq_false hm, Bool.false_eq_true, if_false]
      rw [if_neg hm]

theorem dropShortParent_allSeg (m : ℚ) (cs : List WTree)
    (hall : (cs.all WTree.isSeg) = true) :
    dropShortParent m (.well cs) =
      .ok (.well (((leafSegsL cs).filter (fun s => decide (m < s.len))).map WTree.seg)) := by
  conv_lhs => rw [allSeg_eq_map cs hall]
  simp only [dropShortParent, filterLong_allSeg m (leafSegsL cs), okBind]

theorem forall2_reg_filter (e : Nat) (p : Segment → Bool) :
    ∀ {cs cs₁ : List WTree},
    List.Forall₂ (fun c c₁ => reg (e + 2) c₁ = true ∧ leafSegs c₁ = (leafSegs c).filter p) cs cs₁ →
    regL (e + 2) cs₁ = true ∧ leafSegsL cs₁ = (leafSegsL cs).filter p := by
  intro cs cs₁ h
  induction h with
  | nil => exact ⟨rfl, rfl⟩
  | cons hq hrest ih =>
    refine ⟨?_, ?_⟩
    · simp only [regL, Bool.and_eq_true]
      exact ⟨hq.1, ih.1⟩
    · simp only [leafSegsL, List.filter_append, hq.2, ih.2]

theorem dropShort_fullReg (m : ℚ) : ∀ t : WTree, ∀ d : Nat,
    fullReg d t = true →
    ∃ t₁, mapAtLevelM (d - 2) (dropShortParent m) t = .ok t₁ ∧ reg d t₁ = true ∧
      leafSegs t₁ = (leafSegs t).filter (fun s => decide (m < s.len)) := by
  intro t
  induction t using WTree.ind with
  | hseg s =>
    intro d h
    rcases fullReg_cases d _ h with ⟨_, cs, hcs, _⟩ | ⟨e, cs, _, hcs, _⟩ <;>
      exact absurd hcs (by simp)
  | hwell cs ih =>
    intro d h
    rcases fullReg_cases d _ h with ⟨hd2, cs', heq, hne, hall⟩ | ⟨e, cs', hd3, heq, hne, hreg⟩
    · injection heq with heq'
      subst heq' hd2
      refine ⟨.well (((leafSegsL cs).filter (fun s => decide (m < s.len))).map WTree.seg),
        ?_, ?_, ?_⟩
      · show dropShortParent m (.well cs) = _
        exact dropShortParent_allSeg m cs hall
      · show reg 2 _ = true
        simp only [reg]
        exact allSeg_map_seg _
      · show leafSegsL (((leafSegsL cs).filter _).map WTree.seg) = _
        rw [leafSegsL_map_seg]
        rfl
    · injection heq with heq'
      subst heq' hd3
      obtain ⟨cs₁, hcs₁, hall2⟩ := mapAtLevelL_ok e (dropShortParent m)
        (fun c c₁ => reg (e + 2) c₁ = true ∧
          leafSegs c₁ = (leafSegs c).filter (fun s => decide (m < s.len))) cs
        (fun c hc => by
          obtain ⟨c₁, hc₁, hr, hl⟩ := ih c hc (e + 2) (hreg c hc)
          exact ⟨c₁, by simpa using hc₁, hr, hl⟩)
      have hfr := forall2_reg_filter e (fun s => decide (m < s.len)) hall2
      refine ⟨.well cs₁, ?_, ?_, ?_⟩
      · show mapAtLevelM (e + 1) (dropShortParent m) (.well cs) = _
        simp only [mapAtLevelM, hcs₁, okBind]
      · have hne₁ : cs₁ ≠ [] := by
          intro hz
          subst hz
          rw [List.forall₂_nil_right_iff] at hall2
          exact hne hall2
        simp only [reg, Bool.and_eq_true]
        exact ⟨by simpa using hne₁, hfr.1⟩
      · show leafSegsL cs₁ = (leafSegsL cs).filter (fun s => decide (m < s.len))
        exact hfr.2

theorem drop_short_ok (m : ℚ) (t : WTree) (d : Nat)
    (h : fullReg d t = true)
    (hsur : ∃ s ∈ leafSegs t, m < s.len) :
    ∃ t₃, drop_short_segments m t = .ok t₃ ∧ tree_depth t₃ = .ok d ∧
      leafSegs t₃ = (leafSegs t).filter (fun s => decide (m < s.len)) := by
  have hreg := fullReg_reg _ _ h
  have htd := tree_depth_reg _ _ hreg
  obtain ⟨t₁, hmap, hr₁, hl₁⟩ := dropShort_fullReg m t d h
  have hpr := prune_eq_specPrune t₁ d hr₁
  refine ⟨specPrune t₁, ?_, ?_, ?_⟩
  · simp only [drop_short_segments, htd, okBind, hmap, hpr]
  · have hpos : 0 < leafCount t₁ := by
      obtain ⟨s, hs, hms⟩ := hsur
      have hmem : s ∈ leafSegs t₁ := by
        rw [hl₁]
        exact List.mem_filter.mpr ⟨hs, by simpa using hms⟩
      have := List.length_pos.mpr (List.ne_nil_of_mem hmem)
      simpa [leafCount] using this
    exact tree_depth_reg _ _ (reg_specPrune t₁ d hr₁ hpos)
  · rw [leafSegs_specPrune, hl₁]

theorem isWrapper_spec {t : WTree} (h : isWrapper t = true) :
    ∃ ss : List Segment, ss ≠ [] ∧ t = .well (ss.map WTree.seg) := by
  cases t with
  | seg s => simp [isWrapper] at h
  | well cs =>
    cases cs with
    | nil => simp [isWrapper] at h
    | cons c rest =>
      simp only [isWrapper] at h
      refine ⟨leafSegsL (c :: rest), ?_, ?_⟩
      · intro hz
        have := allSeg_eq_map _ h
        rw [hz] at this
        simp at this
      · rw [← allSeg_eq_map _ h]

theorem isWrapper_map_seg (ss : List Segment) (hne : ss ≠ []) :
    isWrapper (.well (ss.map WTree.seg)) = true := by
  match ss, hne with
  | s :: rest, _ =>
    simp only [List.map_cons, isWrapper]
    exact allSeg_map_seg _

theorem isWrapper_reg2 {t : WTree} (h : isWrapper t = true) : reg 2 t = true := by
  obtain ⟨ss, _, rfl⟩ := isWrapper_spec h
  simp only [reg]
  exact allSeg_map_seg ss

theorem rcShape_cases : ∀ (k : Nat) (t : WTree), rcShape k t = true →
    (k = 0 ∧ t = .well []) ∨
    (k = 0 ∧ ∃ cs, t = .well cs ∧ cs ≠ [] ∧ ∀ c ∈ cs, isWrapper c = true) ∨
    (∃ j cs, k = j + 1 ∧ t = .well cs ∧ cs ≠ [] ∧ ∀ c ∈ cs, rcShape j c = true) := by
  intro k t h
  cases t with
  | seg s => rcases k with _ | j <;> simp [rcShape] at h
  | well cs =>
    rcases k with _ | j
    · cases cs with
      | nil => exact Or.inl ⟨rfl, rfl⟩
      | cons c rest =>
        refine Or.inr (Or.inl ⟨rfl, c :: rest, rfl, by simp, ?_⟩)
        simp only [rcShape, List.isEmpty_cons, Bool.false_or] at h
        exact fun x hx => List.all_eq_true.mp h x hx
    · simp only [rcShape, Bool.and_eq_true] at h
      exact Or.inr (Or.inr ⟨j, cs, rfl, rfl, by simpa using h.1,
        fun c hc => rcShapeL_eq_forall.mp h.2 c hc⟩)

theorem rcShape_td : ∀ (t : WTree) (k : Nat), rcShape k t = true →
    tree_depth t = .ok (k + 2) ∨ tree_depth t = .ok (k + 3) := by
  intro t
  induction t using WTree.ind with
  | hseg s =>
    intro k h
    rcases rcShape_cases k _ h with ⟨_, hcs⟩ | ⟨_, cs, hcs, _⟩ | ⟨j, cs, _, hcs, _⟩ <;>
      exact absurd hcs (by simp)
  | hwell cs ih =>
    intro k h
    rcases rcShape_cases k _ h with ⟨hk, hcs⟩ | ⟨hk, cs', heq, hne, hwr⟩ |
      ⟨j, cs', hk, heq, hne, hsh⟩
    · injection hcs with hcs'
      subst hcs' hk
      left; rfl
    · injection heq with heq'
      subst heq' hk
      right
      match cs, hne, hwr with
      | c :: rest, _, hwr =>
        obtain ⟨ss, hss, rfl⟩ := isWrapper_spec (hwr c (by simp))
        rw [tree_depth_cons _ _ (by
          cases ss with
          | nil => exact absurd rfl hss
          | cons a b => simp)]
        rw [tree_depth_reg _ 2 (isWrapper_reg2 (hwr _ (by simp)))]
        rfl
    · injection heq with heq'
      subst heq' hk
      match cs, hne, hsh with
      | c :: rest, _, hsh =>
        have hc := hsh c (by simp)
        have hcw : WTree.isSeg c = false := by
          rcases rcShape_cases j c hc with ⟨_, rfl⟩ | ⟨_, cs2, rfl, _⟩ | ⟨j2, cs2, _, rfl, _⟩ <;>
            rfl
        rw [tree_depth_cons _ _ (by simp [hcw])]
        rcases ih c (by simp) j hc with htd | htd
        · rw [htd]; left; rfl
        · rw [htd]; right; rfl

theorem td_well_nil : tree_depth (.well []) = .ok 2 := rfl

theorem td_wrappers (cs : List WTree) (hne : cs ≠ [])
    (hwr : ∀ c ∈ cs, isWrapper c = true) : tree_depth (.well cs) = .ok 3 := by
  match cs, hne, hwr with
  | c :: rest, _, hwr =>
    obtain ⟨ss, hss, hceq⟩ := isWrapper_spec (hwr c (by simp))
    rw [tree_depth_cons _ _ (by
      rw [hceq]
      cases ss with
      | nil => exact absurd rfl hss
      | cons a b => simp)]
    rw [tree_depth_reg _ 2 (isWrapper_reg2 (hwr _ (by simp)))]
    rfl

theorem iter_levelL_exists (k : Int) : ∀ cs : List WTree,
    (∀ c ∈ cs, ∃ ws, iter_level c k = .ok ws ∧ (ws = [] ↔ leafSegs c = [])) →
    ∃ ws, iter_levelL cs k = .ok ws ∧ (ws = [] ↔ leafSegsL cs = []) := by
  intro cs
  induction cs with
  | nil => intro _; exact ⟨[], rfl, by simp [leafSegsL]⟩
  | cons c rest ih =>
    intro h
    obtain ⟨w1, hw1, hiff1⟩ := h c (by simp)
    obtain ⟨w2, hw2, hiff2⟩ := ih (fun c hc => h c (List.mem_cons_of_mem _ hc))
    refine ⟨w1 ++ w2, ?_, ?_⟩
    · simp only [iter_levelL, hw1, hw2, okBind]
    · simp only [List.append_eq_nil, leafSegsL, hiff1, hiff2]

theorem rc_B : ∀ t : WTree, ∀ j : Nat, rcShape j t = true →
    iter_level t ((j : Int) + 2) = .ok ((leafSegs t).map WTree.seg) := by
  intro t
  induction t using WTree.ind with
  | hseg s =>
    intro j h
    rcases rcShape_cases j _ h with ⟨_, hcs⟩ | ⟨_, cs, hcs, _⟩ | ⟨i, cs, _, hcs, _⟩ <;>
      exact absurd hcs (by simp)
  | hwell cs ih =>
    intro j h
    rcases rcShape_cases j _ h with ⟨hj, hcs⟩ | ⟨hj, cs', heq, hne, hwr⟩ |
      ⟨i, cs', hj, heq, hne, hsh⟩
    · injection hcs with hcs'
      subst hcs' hj
      rw [iter_level_unfold [] 2 _ td_well_nil]
      have e1 : normLvl 2 ((0 : Nat) + 2 : Int) = 2 := by
        simp only [normLvl]
        rw [if_pos (by omega)]
        norm_num
      rw [e1]
      rw [if_neg (by omega), if_neg (by omega), if_neg (by omega)]
      rfl
    · injection heq with heq'
      subst heq' hj
      have htd := td_wrappers cs hne hwr
      rw [iter_level_unfold cs 3 _ htd]
      have e1 : normLvl 3 ((0 : Nat) + 2 : Int) = 2 := by
        simp only [normLvl]
        rw [if_pos (by omega)]
        norm_num
      rw [e1]
      rw [if_neg (by omega), if_neg (by omega), if_neg (by omega)]
      have harg : (2 : Int) - 1 = ((2 : Nat) : Int) - 1 := by norm_num
      rw [harg]
      rw [reg_iter_leavesL _ cs (fun c hc => by
        have h2 := reg_iter_leaves c 2 (isWrapper_reg2 (hwr c hc))
        exact h2)]
      rfl
    · injection heq with heq'
      subst heq' hj
      rcases rcShape_td (.well cs) (i + 1) h with htd | htd
      · rw [iter_level_unfold cs (i + 1 + 2) _ htd]
        have e1 : normLvl (i + 1 + 2) ((((i : Nat) + 1 : Nat) : Int) + 2) = (i : Int) + 3 := by
          simp only [normLvl]
          rw [if_pos (by push_cast; omega)]
          push_cast; ring
        rw [e1]
        rw [if_neg (by push_cast; omega), if_neg (by omega), if_neg (by omega)]
        have harg : (i : Int) + 3 - 1 = (i : Int) + 2 := by ring
        rw [harg]
        obtain ⟨ws, hws, _⟩ := iter_levelL_exists ((i : Int) + 2) cs (fun c hc =>
          ⟨(leafSegs c).map WTree.seg, ih c hc i (hsh c hc), by simp⟩)
        rw [reg_iter_leavesL _ cs (fun c hc => ih c hc i (hsh c hc))]
        rfl
      · rw [iter_level_unfold cs (i + 1 + 3) _ htd]
        have e1 : normLvl (i + 1 + 3) ((((i : Nat) + 1 : Nat) : Int) + 2) = (i : Int) + 3 := by
          simp only [normLvl]
          rw [if_pos (by push_cast; omega)]
          push_cast; ring
        rw [e1]
        rw [if_neg (by push_cast; omega), if_neg (by omega), if_neg (by omega)]
        have harg : (i : Int) + 3 - 1 = (i : Int) + 2 := by ring
        rw [harg]
        rw [reg_iter_leavesL _ cs (fun c hc => ih c hc i (hsh c hc))]
        rfl

theorem rc_A : ∀ t : WTree, ∀ j : Nat, rcShape j t = true →
    ∃ ws, iter_level t ((j : Int) + 1) = .ok ws ∧ (ws = [] ↔ leafSegs t = []) := by
  intro t
  induction t using WTree.ind with
  | hseg s =>
    intro j h
    rcases rcShape_cases j _ h with ⟨_, hcs⟩ | ⟨_, cs, hcs, _⟩ | ⟨i, cs, _, hcs, _⟩ <;>
      exact absurd hcs (by simp)
  | hwell cs ih =>
    intro j h
    rcases rcShape_cases j _ h with ⟨hj, hcs⟩ | ⟨hj, cs', heq, hne, hwr⟩ |
      ⟨i, cs', hj, heq, hne, hsh⟩
    · injection hcs with hcs'
      subst hcs' hj
      refine ⟨[], ?_, by simp [leafSegs, leafSegsL]⟩
      rw [iter_level_unfold [] 2 _ td_well_nil]
      have e1 : normLvl 2 ((0 : Nat) + 1 : Int) = 1 := by
        simp only [normLvl]
        rw [if_pos (by omega)]
        norm_num
      rw [e1]
      rw [if_neg (by omega), if_neg (by omega), if_pos rfl]
    · injection heq with heq'
      subst heq' hj
      have htd := td_wrappers cs hne hwr
      refine ⟨cs, ?_, ?_⟩
      · rw [iter_level_unfold cs 3 _ htd]
        have e1 : normLvl 3 ((0 : Nat) + 1 : Int) = 1 := by
          simp only [normLvl]
          rw [if_pos (by omega)]
          norm_num
        rw [e1]
        rw [if_neg (by omega), if_neg (by omega), if_pos rfl]
      · constructor
        · intro hz; exact absurd hz hne
        · intro hz
          match cs, hne, hwr with
          | c :: rest, _, hwr =>
            obtain ⟨ss, hss, rfl⟩ := isWrapper_spec (hwr c (by simp))
            rw [show leafSegs (WTree.well (WTree.well (ss.map WTree.seg) :: rest)) =
              leafSegsL (WTree.well (ss.map WTree.seg) :: rest) from rfl] at hz
            simp only [leafSegsL, leafSegs, leafSegsL_map_seg, List.append_eq_nil] at hz
            exact absurd hz.1 hss
    · injection heq with heq'
      subst heq' hj
      rcases rcShape_td (.well cs) (i + 1) h with htd | htd
      · obtain ⟨ws, hws, hiff⟩ := iter_levelL_exists ((i : Int) + 1) cs
          (fun c hc => ih c hc i (hsh c hc))
        refine ⟨ws, ?_, hiff⟩
        rw [iter_level_unfold cs (i + 1 + 2) _ htd]
        have e1 : normLvl (i + 1 + 2) ((((i : Nat) + 1 : Nat) : Int) + 1) = (i : Int) + 2 := by
          simp only [normLvl]
          rw [if_pos (by push_cast; omega)]
          push_cast; ring
        rw [e1]
        rw [if_neg (by push_cast; omega), if_neg (by omega), if_neg (by omega)]
        have harg : (i : Int) + 2 - 1 = (i : Int) + 1 := by ring
        rw [harg, hws]
      · obtain ⟨ws, hws, hiff⟩ := iter_levelL_exists ((i : Int) + 1) cs
          (fun c hc => ih c hc i (hsh c hc))
        refine ⟨ws, ?_, hiff⟩
        rw [iter_level_unfold cs (i + 1 + 3) _ htd]
        have e1 : normLvl (i + 1 + 3) ((((i : Nat) + 1 : Nat) : Int) + 1) = (i : Int) + 2 := by
          simp only [normLvl]
          rw [if_pos (by push_cast; omega)]
          push_cast; ring
        rw [e1]
        rw [if_neg (by push_cast; omega), if_neg (by omega), if_neg (by omega)]
        have harg : (i : Int) + 2 - 1 = (i : Int) + 1 := by ring
        rw [harg, hws]

theorem rc_nseg : ∀ (t : WTree) (k : Nat), rcShape k t = true →
    ∃ m, n_segments t = .ok m ∧ (0 < m ↔ 0 < leafCount t) := by
  intro t k h
  have hwell : ∃ cs, t = .well cs := by
    rcases rcShape_cases k _ h with ⟨_, hcs⟩ | ⟨_, cs, hcs, _⟩ | ⟨i, cs, _, hcs, _⟩
    · exact ⟨[], hcs⟩
    · exact ⟨cs, hcs⟩
    · exact ⟨cs, hcs⟩
  obtain ⟨cs, rfl⟩ := hwell
  rcases rcShape_td _ k h with htd | htd
  · obtain ⟨ws, hA, hiff⟩ := rc_A _ k h
    rw [iter_level_unfold cs (k + 2) _ htd] at hA
    have e2 : normLvl (k + 2) ((k : Int) + 1) = (k : Int) + 1 := by
      simp only [normLvl]
      rw [if_pos (by omega)]
    rw [e2] at hA
    refine ⟨ws.length, ?_, ?_⟩
    · simp only [n_segments]
      rw [iter_level_unfold cs (k + 2) _ htd]
      have e1 : normLvl (k + 2) (-1) = (k : Int) + 1 := by
        simp only [normLvl]
        rw [if_neg (by omega)]
        push_cast; ring
      rw [e1, hA]
      rfl
    · rw [List.length_pos, ne_eq, hiff]
      rw [show leafCount (WTree.well cs) = (leafSegs (WTree.well cs)).length from rfl]
      rw [List.length_pos, ne_eq]
  · have hB := rc_B _ k h
    rw [iter_level_unfold cs (k + 3) _ htd] at hB
    have e2 : normLvl (k + 3) ((k : Int) + 2) = (k : Int) + 2 := by
      simp only [normLvl]
      rw [if_pos (by omega)]
    rw [e2] at hB
    refine ⟨leafCount (.well cs), ?_, by simp⟩
    · simp only [n_segments]
      rw [iter_level_unfold cs (k + 3) _ htd]
      have e1 : normLvl (k + 3) (-1) = (k : Int) + 2 := by
        simp only [normLvl]
        rw [if_neg (by omega)]
        push_cast; ring
      rw [e1, hB]
      simp only [Except.map, List.length_map]
      rfl

theorem keepFlags_pos : ∀ cs : List WTree,
    (∀ c ∈ cs, WTree.isSeg c = false ∧
      ∃ m, n_segments c = .ok m ∧ (0 < m ↔ 0 < leafCount c)) →
    keepFlags cs = .ok (cs.map fun c => decide (0 < leafCount c)) := by
  intro cs
  induction cs with
  | nil => intro _; rfl
  | cons c rest ih =>
    intro h
    obtain ⟨hs, m, hm, hiff⟩ := h c (by simp)
    have ihrest := ih (fun c hc => h c (List.mem_cons_of_mem _ hc))
    cases c with
    | seg s => simp at hs
    | well cs' =>
      simp only [keepFlags, hm, ihrest, List.map_cons, okBind]
      have : decide (0 < m) = decide (0 < leafCount (WTree.well cs')) := by
        rcases Nat.eq_zero_or_pos m with hz | hp
        · subst hz
          have : ¬ 0 < leafCount (WTree.well cs') := by
            intro hx
            exact absurd (hiff.mpr hx) (by omega)
          simp [this]
        · simp [decide_eq_true hp, decide_eq_true (hiff.mp hp)]
      rw [this]

theorem prune_rc : ∀ (t : WTree) (k : Nat), rcShape k t = true →
    prune t = .ok (specPrune t) := by
  intro t
  induction t using WTree.ind with
  | hseg s =>
    intro k h
    rcases rcShape_cases k _ h with ⟨_, hcs⟩ | ⟨_, cs, hcs, _⟩ | ⟨i, cs, _, hcs, _⟩ <;>
      exact absurd hcs (by simp)
  | hwell cs ih =>
    intro k h
    rcases rcShape_cases k _ h with ⟨hk, hcs⟩ | ⟨hk, cs', heq, hne, hwr⟩ |
      ⟨i, cs', hk, heq, hne, hsh⟩
    · injection hcs with hcs'
      subst hcs' hk
      rfl
    · injection heq with heq'
      subst heq' hk
      have hw : ∀ c ∈ cs, WTree.isSeg c = false := by
        intro c hc
        obtain ⟨ss, _, rfl⟩ := isWrapper_spec (hwr c hc)
        rfl
      rw [prune_step cs _ _
        (keepFlags_wells cs (fun c hc =>
          ⟨hw c hc, n_segments_reg c 2 (isWrapper_reg2 (hwr c hc))⟩))
        (pruneMasked_wells cs (fun c hc =>
          ⟨hw c hc, prune_eq_specPrune c 2 (isWrapper_reg2 (hwr c hc))⟩))]
      rfl
    · injection heq with heq'
      subst heq' hk
      have hw : ∀ c ∈ cs, WTree.isSeg c = false := by
        intro c hc
        rcases rcShape_cases i c (hsh c hc) with ⟨_, rfl⟩ | ⟨_, cs2, rfl, _⟩ |
          ⟨j2, cs2, _, rfl, _⟩ <;> rfl
      rw [prune_step cs _ _
        (keepFlags_pos cs (fun c hc => ⟨hw c hc, rc_nseg c i (hsh c hc)⟩))
        (pruneMasked_wells cs (fun c hc => ⟨hw c hc, ih c hc i (hsh c hc)⟩))]
      rfl

theorem alignedB_append : ∀ (xs ys : List WTree) (zs : List (List Nat)),
    alignedB (xs ++ ys) zs = true →
    ∃ zs₁ zs₂, zs = zs₁ ++ zs₂ ∧ alignedB xs zs₁ = true ∧ alignedB ys zs₂ = true := by
  intro xs
  induction xs with
  | nil => intro ys zs h; exact ⟨[], zs, rfl, rfl, h⟩
  | cons p ps ih =>
    intro ys zs h
    cases zs with
    | nil => simp [alignedB] at h
    | cons ks kss =>
      simp only [List.cons_append, alignedB, Bool.and_eq_true] at h
      obtain ⟨zs₁, zs₂, rfl, h1, h2⟩ := ih ys kss h.2
      exact ⟨ks :: zs₁, zs₂, rfl, by simp [alignedB, h.1, h1], h2⟩

theorem alignedB_single (t : WTree) (used : List (List Nat))
    (h : alignedB [t] used = true) :
    ∃ ks, used = [ks] ∧ childCount t = ks.length := by
  cases used with
  | nil => simp [alignedB] at h
  | cons ks kss =>
    simp only [alignedB, Bool.and_eq_true] at h
    cases kss with
    | nil => exact ⟨ks, rfl, by simpa using h.1⟩
    | cons a b => simp [alignedB] at h

theorem rcParent_pipeline (fRC : Segment → Nat → List Segment)
    (hf : ∀ s k, (fRC s k).length = k) :
    ∀ (ss : List Segment) (ks : List Nat), ss.length = ks.length →
    ∃ ws, ((((ss.map WTree.seg).zip ks).filter (fun p => 0 < p.2)).mapM (fun p =>
        match p.1 with
        | .seg s => Except.ok (WTree.well ((fRC s p.2).map WTree.seg))
        | .well _ => Except.error PyErr.typeError)) = .ok ws ∧
      (ws.all isWrapper) = true ∧ (leafSegsL ws).length = ks.sum := by
  intro ss
  induction ss with
  | nil =>
    intro ks hlen
    cases ks with
    | nil => exact ⟨[], rfl, rfl, rfl⟩
    | cons k ks' => simp at hlen
  | cons s ss' ih =>
    intro ks hlen
    cases ks with
    | nil => simp at hlen
    | cons k ks' =>
      have hlen' : ss'.length = ks'.length := by simpa using hlen
      obtain ⟨ws', hws', hall', hcount'⟩ := ih ks' hlen'
      by_cases hk : 0 < k
      · refine ⟨.well ((fRC s k).map WTree.seg) :: ws', ?_, ?_, ?_⟩
        · simp only [List.map_cons, List.zip_cons_cons, List.filter_cons,
            decide_eq_true hk, if_true, List.mapM_cons, hws']
          rfl
        · simp only [List.all_cons, Bool.and_eq_true]
          refine ⟨?_, hall'⟩
          refine isWrapper_map_seg _ ?_
          intro hz
          have := hf s k
          rw [hz] at this
          simp at this
          omega
        · simp only [leafSegsL]
          rw [show leafSegs (WTree.well ((fRC s k).map WTree.seg)) =
            leafSegsL ((fRC s k).map WTree.seg) from rfl]
          rw [leafSegsL_map_seg]
          simp only [List.length_append, hcount', hf s k, List.sum_cons]
      · refine ⟨ws', ?_, hall', ?_⟩
        · simp only [List.map_cons, List.zip_cons_cons, List.filter_cons,
            decide_eq_false hk, Bool.false_eq_true, if_false, hws']
        · have hk0 : k = 0 := by omega
          subst hk0
          simpa using hcount'

theorem lengthsL_allSeg : ∀ ss : List Segment,
    lengthsL (ss.map WTree.seg) = .ok (ss.map Segment.len) := by
  intro ss
  induction ss with
  | nil => rfl
  | cons s rest ih =>
    simp only [List.map_cons, lengthsL]
    rw [show lengthE (WTree.seg s) = .ok s.len from rfl]
    simp only [okBind, ih]

theorem rcParent_ok (fRC : Segment → Nat → List Segment)
    (hf : ∀ s k, (fRC s k).length = k)
    (ss : List Segment) (ks : List Nat) (hlen : ss.length = ks.length) :
    ∃ p, rcParent fRC (.well (ss.map WTree.seg)) ks = .ok p ∧ rcShape 0 p = true ∧
      leafCount p = ks.sum := by
  by_cases hsum : 0 < ks.sum
  · obtain ⟨ws, hws, hall, hcount⟩ := rcParent_pipeline fRC hf ss ks hlen
    refine ⟨.well ws, ?_, ?_, ?_⟩
    · simp only [rcParent, if_pos hsum, lengthsL_allSeg, okBind, hws]
    · simp only [rcShape, hall, Bool.or_true]
    · simpa [leafCount, leafSegs] using hcount
  · refine ⟨.well [], ?_, rfl, ?_⟩
    · simp only [rcParent, if_neg hsum]
    · have : ks.sum = 0 := by omega
      simp [leafCount, leafSegs, leafSegsL, this]

theorem rcWalkL_ok (fRC : Segment → Nat → List Segment) (e : Nat) : ∀ cs : List WTree,
    (∀ c ∈ cs, ∀ used rest : List (List Nat), alignedB (nodesAt e c) used = true →
      ∃ c', rcWalk fRC e (used ++ rest) c = .ok (c', rest) ∧ rcShape e c' = true ∧
        leafCount c' = (used.map List.sum).sum) →
    ∀ used rest : List (List Nat), alignedB (nodesAtL e cs) used = true →
    ∃ cs', rcWalkL fRC e (used ++ rest) cs = .ok (cs', rest) ∧ rcShapeL e cs' = true ∧
      cs'.length = cs.length ∧ (leafSegsL cs').length = (used.map List.sum).sum := by
  intro cs
  induction cs with
  | nil =>
    intro _ used rest h
    cases used with
    | nil => exact ⟨[], rfl, rfl, rfl, rfl⟩
    | cons ks kss => simp [nodesAtL, alignedB] at h
  | cons c cs ih =>
    intro hpt used rest h
    rw [show nodesAtL e (c :: cs) = nodesAt e c ++ nodesAtL e cs from rfl] at h
    obtain ⟨u1, u2, rfl, h1, h2⟩ := alignedB_append _ _ _ h
    obtain ⟨c', hw, hsh, hlc⟩ := hpt c (by simp) u1 (u2 ++ rest) h1
    obtain ⟨cs', hwl, hshl, hlen, hcount⟩ :=
      ih (fun c hc => hpt c (List.mem_cons_of_mem _ hc)) u2 rest h2
    refine ⟨c' :: cs', ?_, ?_, ?_, ?_⟩
    · rw [List.append_assoc]
      simp only [rcWalkL, hw, okBind, hwl]
    · simp only [rcShapeL, Bool.and_eq_true]
      exact ⟨hsh, hshl⟩
    · simp [hlen]
    · simp only [leafSegsL, List.length_append, List.map_append, List.sum_append]
      rw [hcount]
      rw [show (leafSegs c').length = leafCount c' from rfl, hlc]

theorem rcWalk_ok (fRC : Segment → Nat → List Segment)
    (hf : ∀ s k, (fRC s k).length = k) : ∀ (t : WTree) (d : Nat), reg d t = true →
    ∀ used rest : List (List Nat), alignedB (nodesAt (d - 2) t) used = true →
    ∃ t', rcWalk fRC (d - 2) (used ++ rest) t = .ok (t', rest) ∧
      rcShape (d - 2) t' = true ∧ leafCount t' = (used.map List.sum).sum := by
  intro t
  induction t using WTree.ind with
  | hseg s =>
    intro d h
    rcases reg_cases d _ h with ⟨_, cs, hcs, _⟩ | ⟨e, cs, _, hcs, _⟩ <;>
      exact absurd hcs (by simp)
  | hwell cs ih =>
    intro d h used rest halign
    rcases reg_cases d _ h with ⟨hd2, cs', heq, hall⟩ | ⟨e, cs', hd3, heq, hne, hreg⟩
    · injection heq with heq'
      subst heq' hd2
      obtain ⟨ks, rfl, hcc⟩ := alignedB_single _ _ halign
      have hcs : WTree.well cs = WTree.well ((leafSegsL cs).map WTree.seg) := by
        rw [← allSeg_eq_map cs hall]
      have hlen : (leafSegsL cs).length = ks.length := by
        rw [show childCount (WTree.well cs) = cs.length from rfl] at hcc
        rw [← hcc]
        conv_rhs => rw [allSeg_eq_map cs hall]
        simp
      obtain ⟨p, hp, hsh, hlc⟩ := rcParent_ok fRC hf (leafSegsL cs) ks hlen
      refine ⟨p, ?_, hsh, by simp [hlc]⟩
      show rcWalk fRC 0 (ks :: rest) (WTree.well cs) = .ok (p, rest)
      rw [hcs]
      simp only [rcWalk, hp, okBind]
    · injection heq with heq'
      subst heq' hd3
      have halign' : alignedB (nodesAtL e cs) used = true := by
        have h0 : nodesAt (e + 3 - 2) (WTree.well cs) = nodesAtL e cs := rfl
        rwa [h0] at halign
      obtain ⟨cs₁, hwl, hshl, hlen, hcount⟩ := rcWalkL_ok fRC e cs
        (fun c hc used₀ rest₀ ha => by
          have hr := ih c hc (e + 2) (hreg c hc) used₀ rest₀
            (by rwa [show nodesAt (e + 2 - 2) c = nodesAt e c from rfl])
          rwa [show e + 2 - 2 = e from rfl] at hr)
        used rest halign' 
      refine ⟨.well cs₁, ?_, ?_, ?_⟩
      · show rcWalk fRC (e + 1) (used ++ rest) (WTree.well cs) = _
        simp only [rcWalk, hwl, okBind]
      · show rcShape (e + 1) (.well cs₁) = true
        simp only [rcShape, Bool.and_eq_true]
        refine ⟨?_, hshl⟩
        have : cs₁ ≠ [] := by
          intro hz
          rw [hz] at hlen
          simp at hlen
          exact hne (List.length_eq_zero.mp hlen.symm)
        simpa using this
      · simpa [leafCount, leafSegs] using hcount

theorem iter_level_norm_neg (cs : List WTree) (d : Nat) (lv : Int)
    (htd : tree_depth (.well cs) = .ok d) (h1 : lv < 0) (h2 : 0 ≤ (d : Int) + lv) :
    iter_level (.well cs) lv = iter_level (.well cs) ((d : Int) + lv) := by
  rw [iter_level_unfold cs d lv htd, iter_level_unfold cs d ((d : Int) + lv) htd]
  have e1 : normLvl d lv = (d : Int) + lv := by
    simp only [normLvl]
    rw [if_neg (by omega)]
  have e2 : normLvl d ((d : Int) + lv) = (d : Int) + lv := by
    simp only [normLvl]
    rw [if_pos (by omega)]
  rw [e1, e2]

theorem nodesAtL_zero : ∀ cs : List WTree, nodesAtL 0 cs = cs := by
  intro cs
  induction cs with
  | nil => rfl
  | cons c rest ih => simp [nodesAtL, nodesAt, ih]

theorem nodesAtL_mem : ∀ (j : Nat) (cs : List WTree) (w : WTree),
    w ∈ nodesAtL j cs → ∃ c ∈ cs, w ∈ nodesAt j c := by
  intro j cs
  induction cs with
  | nil => intro w hw; simp [nodesAtL] at hw
  | cons c rest ih =>
    intro w hw
    rw [show nodesAtL j (c :: rest) = nodesAt j c ++ nodesAtL j rest from rfl] at hw
    rcases List.mem_append.mp hw with h | h
    · exact ⟨c, by simp, h⟩
    · obtain ⟨c', hc', hw'⟩ := ih w h
      exact ⟨c', List.mem_cons_of_mem _ hc', hw'⟩

theorem iter_levelL_nodesAt (k : Int) (j : Nat) : ∀ cs : List WTree,
    (∀ c ∈ cs, iter_level c k = .ok (nodesAt j c)) →
    iter_levelL cs k = .ok (nodesAtL j cs) := by
  intro cs h
  induction cs with
  | nil => rfl
  | cons c rest ih =>
    simp only [iter_levelL]
    rw [h c (by simp), ih (fun c hc => h c (List.mem_cons_of_mem _ hc))]
    rfl

theorem reg_iter_parents : ∀ t : WTree, ∀ d : Nat, reg d t = true →
    iter_level t ((d : Int) - 2) = .ok (nodesAt (d - 2) t) ∧
    ∀ w ∈ nodesAt (d - 2) t, reg 2 w = true := by
  intro t
  induction t using WTree.ind with
  | hseg s =>
    intro d h
    rcases reg_cases d _ h with ⟨_, cs, hcs, _⟩ | ⟨e, cs, _, hcs, _⟩ <;>
      exact absurd hcs (by simp)
  | hwell cs ih =>
    intro d h
    have htd := tree_depth_reg _ _ h
    rcases reg_cases d _ h with ⟨hd2, cs', heq, hall⟩ | ⟨e, cs', hd3, heq, hne, hreg⟩
    · injection heq with heq'
      subst heq'
      refine ⟨?_, ?_⟩
      · rw [iter_level_unfold cs d _ htd]
        have hn : normLvl d ((d : Int) - 2) = 0 := by
          simp only [normLvl]
          rw [if_pos (by omega)]
          omega
        rw [hn, if_neg (by omega), if_pos rfl]
        rw [show d - 2 = 0 from by omega]
        rw [show nodesAt 0 (WTree.well cs) = [WTree.well cs] from rfl]
      · intro w hw
        rw [show d - 2 = 0 from by omega] at hw
        have hww : w = .well cs := by simpa [nodesAt] using hw
        subst hww
        exact hd2 ▸ h
    · injection heq with heq'
      subst heq'
      refine ⟨?_, ?_⟩
      · rw [iter_level_unfold cs d _ htd]
        have hn : normLvl d ((d : Int) - 2) = (d : Int) - 2 := by
          simp only [normLvl]
          rw [if_pos (by omega)]
        rw [hn, if_neg (by omega)]
        by_cases he : e = 0
        · subst he
          rw [if_neg (by omega), if_pos (by omega)]
          rw [show d - 2 = 1 from by omega]
          rw [show nodesAt 1 (WTree.well cs) = nodesAtL 0 cs from rfl, nodesAtL_zero]
        · rw [if_neg (by omega), if_neg (by omega)]
          have harg : (d : Int) - 2 - 1 = ((e + 2 : Nat) : Int) - 2 := by push_cast; omega
          rw [harg]
          rw [show d - 2 = e + 1 from by omega]
          rw [show nodesAt (e + 1) (WTree.well cs) = nodesAtL e cs from rfl]
          rw [iter_levelL_nodesAt _ e cs (fun c hc => by
            have hrec := (ih c hc (e + 2) (hreg c hc)).1
            rwa [show (e + 2) - 2 = e from rfl] at hrec)]
      · intro w hw
        rw [show d - 2 = e + 1 from by omega] at hw
        rw [show nodesAt (e + 1) (WTree.well cs) = nodesAtL e cs from rfl] at hw
        obtain ⟨c, hc, hw'⟩ := nodesAtL_mem e cs w hw
        have hrec := (ih c hc (e + 2) (hreg c hc)).2
        rw [show (e + 2) - 2 = e from rfl] at hrec
        exact hrec w hw'

theorem iter_level_neg2_reg : ∀ (t : WTree) (d : Nat), reg d t = true →
    iter_level t (-2) = .ok (nodesAt (d - 2) t) := by
  intro t d h
  obtain ⟨cs, rfl⟩ := reg_isWell h
  have htd := tree_depth_reg _ _ h
  have hd2 : 2 ≤ d := by
    rcases reg_cases d _ h with ⟨h2, _, _, _⟩ | ⟨e, _, h3, _, _, _⟩ <;> omega
  rw [iter_level_norm_neg cs d (-2) htd (by omega) (by omega)]
  have hpos := (reg_iter_parents _ d h).1
  rwa [show (d : Int) + (-2) = (d : Int) - 2 from by ring]

theorem sumChildLengths_reg2 : ∀ w : WTree, reg 2 w = true →
    ∃ q, sumChildLengths w = .ok q := by
  intro w h
  obtain ⟨cs, rfl⟩ := reg_isWell h
  have hall : (cs.all WTree.isSeg) = true := by simpa [reg] using h
  refine ⟨((leafSegsL cs).map Segment.len).sum, ?_⟩
  conv_lhs => rw [allSeg_eq_map cs hall]
  simp only [sumChildLengths, lengthsL_allSeg, okBind]

theorem weightsL_ok : ∀ ws : List WTree, (∀ w ∈ ws, reg 2 w = true) →
    ∃ qs, weightsL ws = .ok qs := by
  intro ws
  induction ws with
  | nil => intro _; exact ⟨[], rfl⟩
  | cons w rest ih =>
    intro h
    obtain ⟨q, hq⟩ := sumChildLengths_reg2 w (h w (by simp))
    obtain ⟨qs, hqs⟩ := ih (fun w hw => h w (List.mem_cons_of_mem _ hw))
    exact ⟨q :: qs, by simp only [weightsL, hq, okBind, hqs]⟩

/-- Node `u` is a strict descendant of `t` (a child, or a descendant of a child). -/
inductive Subtree : WTree → WTree → Prop
  | child {cs : List WTree} {c : WTree} : c ∈ cs → Subtree c (.well cs)
  | trans {u c : WTree} {cs : List WTree} : Subtree u c → c ∈ cs → Subtree u (.well cs)

theorem errBind {ε α β : Type} (e : ε) (f : α → Except ε β) :
    ((Except.error e : Except ε α) >>= f) = Except.error e := rfl

theorem okBindE {ε α β : Type} (a : α) (f : α → Except ε β) :
    Except.bind (Except.ok a : Except ε α) f = f a := rfl

theorem errBindE {ε α β : Type} (e : ε) (f : α → Except ε β) :
    Except.bind (Except.error e : Except ε α) f = Except.error e := rfl

theorem depth_fromL_mem : ∀ (cs : List WTree) (ds : List ℚ),
    depth_fromL cs = .ok ds → ∀ c ∈ cs, ∃ q ∈ ds, depth_from c = .ok q := by
  intro cs
  induction cs with
  | nil => intro ds _ c hc; simp at hc
  | cons c rest ih =>
    intro ds h x hx
    cases hc : depth_from c with
    | error e => simp [depth_fromL, hc, errBind] at h
    | ok q =>
      cases hr : depth_fromL rest with
      | error e => simp [depth_fromL, hc, hr, okBind, errBind] at h
      | ok ds' =>
        simp only [depth_fromL, hc, hr, okBind] at h
        injection h with h'
        subst h'
        rcases List.mem_cons.mp hx with rfl | hm
        · exact ⟨q, by simp, hc⟩
        · obtain ⟨q', hq', hdq⟩ := ih ds' hr x hm
          exact ⟨q', List.mem_cons_of_mem _ hq', hdq⟩

theorem depth_toL_mem : ∀ (cs : List WTree) (ds : List ℚ),
    depth_toL cs = .ok ds → ∀ c ∈ cs, ∃ q ∈ ds, depth_to c = .ok q := by
  intro cs
  induction cs with
  | nil => intro ds _ c hc; simp at hc
  | cons c rest ih =>
    intro ds h x hx
    cases hc : depth_to c with
    | error e => simp [depth_toL, hc, errBind] at h
    | ok q =>
      cases hr : depth_toL rest with
      | error e => simp [depth_toL, hc, hr, okBind, errBind] at h
      | ok ds' =>
        simp only [depth_toL, hc, hr, okBind] at h
        injection h with h'
        subst h'
        rcases List.mem_cons.mp hx with rfl | hm
        · exact ⟨q, by simp, hc⟩
        · obtain ⟨q', hq', hdq⟩ := ih ds' hr x hm
          exact ⟨q', List.mem_cons_of_mem _ hq', hdq⟩

theorem depth_from_well_inv {cs : List WTree} {a : ℚ}
    (h : depth_from (.well cs) = .ok a) :
    ∃ v vs, depth_fromL cs = .ok (v :: vs) ∧ a = vs.foldl min v := by
  cases hl : depth_fromL cs with
  | error e => simp [depth_from, hl, errBind] at h
  | ok ds =>
    cases ds with
    | nil => simp [depth_from, hl, okBind] at h
    | cons v vs =>
      simp only [depth_from, hl, okBind] at h
      injection h with h'
      exact ⟨v, vs, rfl, h'.symm⟩

theorem depth_to_well_inv {cs : List WTree} {b : ℚ}
    (h : depth_to (.well cs) = .ok b) :
    ∃ v vs, depth_toL cs = .ok (v :: vs) ∧ b = vs.foldl max v := by
  cases hl : depth_toL cs with
  | error e => simp [depth_to, hl, errBind] at h
  | ok ds =>
    cases ds with
    | nil => simp [depth_to, hl, okBind] at h
    | cons v vs =>
      simp only [depth_to, hl, okBind] at h
      injection h with h'
      exact ⟨v, vs, rfl, h'.symm⟩

theorem depth_bounds_child {cs : List WTree} {c : WTree} {a b : ℚ} (hc : c ∈ cs)
    (hf : depth_from (.well cs) = .ok a) (ht : depth_to (.well cs) = .ok b) :
    ∃ x y, depth_from c = .ok x ∧ depth_to c = .ok y ∧ a ≤ x ∧ y ≤ b := by
  obtain ⟨v, vs, hl, ha⟩ := depth_from_well_inv hf
  obtain ⟨w, ws, hl2, hb⟩ := depth_to_well_inv ht
  obtain ⟨x, hxmem, hx⟩ := depth_fromL_mem cs _ hl c hc
  obtain ⟨y, hymem, hy⟩ := depth_toL_mem cs _ hl2 c hc
  refine ⟨x, y, hx, hy, ?_, ?_⟩
  · rw [ha]
    exact foldl_min_le vs v x hxmem
  · rw [hb]
    exact foldl_max_ge ws w y hymem

theorem subtree_bounds : ∀ {t u : WTree}, Subtree u t → ∀ {a b : ℚ},
    depth_from t = .ok a → depth_to t = .ok b →
    ∃ x y, depth_from u = .ok x ∧ depth_to u = .ok y ∧ a ≤ x ∧ y ≤ b := by
  intro t u hsub
  induction hsub with
  | child hc =>
    intro a b hf ht
    exact depth_bounds_child hc hf ht
  | trans hsub hc ih =>
    intro a b hf ht
    obtain ⟨x, y, hx, hy, hax, hyb⟩ := depth_bounds_child hc hf ht
    obtain ⟨x', y', hx', hy', hxx, hyy⟩ := ih hx hy
    exact ⟨x', y', hx', hy', le_trans hax hxx, le_trans hyy hyb⟩

theorem tree_depth_two_le : ∀ (t : WTree) (d : Nat), tree_depth t = .ok d → 2 ≤ d := by
  intro t
  induction t using WTree.ind with
  | hseg s => intro d h; simp [tree_depth] at h
  | hwell cs ih =>
    intro d h
    by_cases hall : (cs.all WTree.isSeg) = true
    · unfold tree_depth at h
      rw [if_pos hall] at h
      injection h with h'
      omega
    · cases cs with
      | nil => simp at hall
      | cons c rest =>
        rw [tree_depth_cons c rest (by simpa using hall)] at h
        cases hc : tree_depth c with
        | error e => rw [hc] at h; simp [errBindE] at h
        | ok n =>
          rw [hc] at h
          have hn := ih c (by simp) n hc
          simp only [okBindE] at h
          injection h with h'
          omega

theorem length_zip_filterMap_skip {ι α : Type} : ∀ (ids : List ι) (rs : List (WellResult α)),
    rs.length = ids.length →
    ((ids.zip rs).filterMap
      (fun p => if WellResult.isSkip p.2 then none else some p.1)).length =
      ids.length - rs.countP (fun r => WellResult.isSkip r) := by
  intro ids
  induction ids with
  | nil => intro rs h; simp
  | cons i ids ih =>
    intro rs h
    cases rs with
    | nil => simp at h
    | cons r rs =>
      have h' : rs.length = ids.length := by simpa using h
      have hcle : rs.countP (fun r => WellResult.isSkip r) ≤ rs.length :=
        List.countP_le_length _
      rw [h'] at hcle
      by_cases hsk : WellResult.isSkip r = true
      · simp only [List.zip_cons_cons, List.filterMap_cons, hsk, if_true, List.countP_cons,
          decide_True, List.length_cons]
        rw [ih rs h']
        omega
      · simp only [List.zip_cons_cons, List.filterMap_cons, hsk, Bool.false_eq_true, if_false,
          List.countP_cons, decide_False, List.length_cons]
        rw [ih rs h']
        omega

theorem survivors_ok {α : Type} (rs : List (WellResult α))
    (hfail : ∀ r ∈ rs, WellResult.isFail r = false) :
    ∀ r ∈ rs.filter (fun r => !WellResult.isSkip r), ∃ w, r = .ok w := by
  intro r hr
  have hmem := List.mem_of_mem_filter hr
  have hns := List.of_mem_filter hr
  cases r with
  | skipExc m => simp [WellResult.isSkip] at hns
  | failExc m => have := hfail _ hmem; simp [WellResult.isFail] at this
  | ok w => exact ⟨w, rfl⟩

theorem filterMap_getOk_length {α : Type} : ∀ (l : List (WellResult α)),
    (∀ r ∈ l, ∃ w, r = .ok w) →
    (l.filterMap (fun r => WellResult.getOk r)).length = l.length := by
  intro l
  induction l with
  | nil => intro _; rfl
  | cons r rest ih =>
    intro h
    obtain ⟨w, rfl⟩ := h r (by simp)
    rw [show (WellResult.ok w :: rest).filterMap (fun r => WellResult.getOk r) =
      w :: rest.filterMap (fun r => WellResult.getOk r) from rfl]
    simp only [List.length_cons]
    rw [ih (fun r hr => h r (List.mem_cons_of_mem _ hr))]

theorem length_filter_not_skip {α : Type} (rs : List (WellResult α)) :
    (rs.filter (fun r => !WellResult.isSkip r)).length =
      rs.length - rs.countP (fun r => WellResult.isSkip r) := by
  induction rs with
  | nil => rfl
  | cons r rest ih =>
    have hcle : rest.countP (fun r => WellResult.isSkip r) ≤ rest.length :=
      List.countP_le_length _
    by_cases hsk : WellResult.isSkip r = true
    · simp only [List.filter_cons, hsk, Bool.not_true, Bool.false_eq_true, if_false,
        List.countP_cons, hsk, if_true, List.length_cons, ih]
      omega
    · have hsk' : WellResult.isSkip r = false := by
        cases h : WellResult.isSkip r
        · rfl
        · exact absurd h hsk
      simp only [List.filter_cons, hsk', Bool.not_false, if_true, List.countP_cons,
        Bool.false_eq_true, if_false, List.length_cons, ih]
      omega

theorem zip_align {ι α : Type} : ∀ (ids : List ι) (rs : List (WellResult α)),
    rs.length = ids.length →
    (∀ r ∈ rs, WellResult.isFail r = false) →
    ((ids.zip rs).filterMap
        (fun p => if WellResult.isSkip p.2 then none else some p.1)).zip
      ((rs.filter (fun r => !WellResult.isSkip r)).filterMap (fun r => WellResult.getOk r)) =
    (ids.zip rs).filterMap
      (fun p => match p.2 with | .ok w => some (p.1, w) | _ => none) := by
  intro ids
  induction ids with
  | nil => intro rs _ _; simp
  | cons i ids ih =>
    intro rs h hfail
    cases rs with
    | nil => simp at h
    | cons r rest =>
      have h' : rest.length = ids.length := by simpa using h
      have ihrest := ih rest h' (fun r hr => hfail r (List.mem_cons_of_mem _ hr))
      cases r with
      | skipExc m => exact ihrest
      | failExc m =>
        have := hfail (.failExc m) (by simp)
        simp [WellResult.isFail] at this
      | ok w => exact congrArg (List.cons (i, w)) ihrest

theorem delegAccum_eq (f : WTree → DelegRes) : ∀ cs : List WTree,
    delegAccum f cs = (cs.map (fun c => DelegRes.toList (f c))).flatten := by
  intro cs
  induction cs with
  | nil => rfl
  | cons c rest ih => simp [delegAccum, ih]

theorem delegAccum_append (f : WTree → DelegRes) : ∀ cs₁ cs₂ : List WTree,
    delegAccum f (cs₁ ++ cs₂) = delegAccum f cs₁ ++ delegAccum f cs₂ := by
  intro cs₁ cs₂
  induction cs₁ with
  | nil => rfl
  | cons c rest ih => simp [delegAccum, ih]

/-! ## The claims -/

/-- C1: a dispatch over `N` roots in which exactly `K` raise the skip
condition and none raises any other exception (and not all skip) succeeds;
afterwards the batch holds exactly `N − K` roots, its identifier index is the
subset of the original identifiers whose roots did not skip in original
relative order, and the root array is the corresponding success results in
the same order (entry `i` of the new index pairs with entry `i` of the new
root array, coming from the same original position). -/
theorem petroflow_c1 {ι α : Type} (b : WellBatch ι α) (results : List (WellResult α))
    (hlen : results.length = b.indices.length)
    (hfail : ∀ r ∈ results, WellResult.isFail r = false)
    (hK : results.countP (fun r => WellResult.isSkip r) < b.indices.length) :
    ∃ b' : WellBatch ι α, filter_assemble_run b results = (b', none) ∧
      b'.indices = (b.indices.zip results).filterMap
        (fun p => if WellResult.isSkip p.2 then none else some p.1) ∧
      b'.wells = (results.filter (fun r => !WellResult.isSkip r)).filterMap
        (fun r => WellResult.getOk r) ∧
      b'.indices.length = b.indices.length - results.countP (fun r => WellResult.isSkip r) ∧
      b'.wells.length = b.indices.length - results.countP (fun r => WellResult.isSkip r) ∧
      b'.indices.zip b'.wells = (b.indices.zip results).filterMap
        (fun p => match p.2 with | .ok w => some (p.1, w) | _ => none) := by
  have hne : ¬ results.countP (fun r => WellResult.isSkip r) = b.indices.length :=
    Nat.ne_of_lt hK
  have hany : ((results.filter (fun r => !WellResult.isSkip r)).any
      (fun r => WellResult.isFail r)) = false := by
    rw [List.any_eq_false]
    intro r hr
    obtain ⟨w, rfl⟩ := survivors_ok results hfail r hr
    simp [WellResult.isFail]
  have hfa : filter_assemble b results = .ok
      { indices := (b.indices.zip results).filterMap
          (fun p => if WellResult.isSkip p.2 then none else some p.1)
        wells := (results.filter (fun r => !WellResult.isSkip r)).filterMap
          (fun r => WellResult.getOk r) } := by
    unfold filter_assemble
    rw [if_neg hne, if_neg (by simp [hany])]
  refine ⟨{ indices := (b.indices.zip results).filterMap
              (fun p => if WellResult.isSkip p.2 then none else some p.1)
            wells := (results.filter (fun r => !WellResult.isSkip r)).filterMap
              (fun r => WellResult.getOk r) }, ?_, rfl, rfl, ?_, ?_, ?_⟩
  · simp only [filter_assemble_run, hfa]
  · exact length_zip_filterMap_skip b.indices results hlen
  · show ((results.filter (fun r => !WellResult.isSkip r)).filterMap
      (fun r => WellResult.getOk r)).length = _
    rw [filterMap_getOk_length _ (survivors_ok results hfail), length_filter_not_skip, hlen]
  · exact zip_align b.indices results hlen hfail

/-- C2: a dispatch in which every root raises the skip condition aborts with
the batch-level skip condition carrying the first root's skip message
(`SkipBatchException(str(results[0]))`), and the batch's identifier index and
root array are left unchanged. -/
theorem petroflow_c2 {ι α : Type} (b : WellBatch ι α) (r : WellResult α)
    (rest : List (WellResult α))
    (hlen : (r :: rest).length = b.indices.length)
    (hall : ∀ x ∈ r :: rest, WellResult.isSkip x = true) :
    filter_assemble_run b (r :: rest) = (b, some (.skipBatch (WellResult.msg r))) := by
  have hcnt : (r :: rest).countP (fun x => WellResult.isSkip x) = b.indices.length := by
    rw [← hlen]
    exact List.countP_eq_length.mpr (fun a ha => hall a ha)
  have hfa : filter_assemble b (r :: rest) = .error (.skipBatch (WellResult.msg r)) := by
    unfold filter_assemble
    rw [if_pos hcnt]
  simp only [filter_assemble_run, hfa]

/-- C3: a dispatch in which at least one root raises a non-skip exception
aborts with the fatal `RuntimeError("Could not assemble the batch")`, and
nothing is committed: the batch's identifier index and root array are exactly
the pre-dispatch ones. -/
theorem petroflow_c3 {ι α : Type} (b : WellBatch ι α) (results : List (WellResult α))
    (hlen : results.length = b.indices.length)
    (r₀ : WellResult α) (hr₀ : r₀ ∈ results) (hf₀ : WellResult.isFail r₀ = true) :
    filter_assemble_run b results =
      (b, some (.runtimeError "Could not assemble the batch")) := by
  have hns : WellResult.isSkip r₀ = false := by
    cases r₀ with
    | skipExc m => simp [WellResult.isFail] at hf₀
    | failExc m => rfl
    | ok w => simp [WellResult.isFail] at hf₀
  have hne : ¬ results.countP (fun r => WellResult.isSkip r) = b.indices.length := by
    intro heq
    have hallskip := List.countP_eq_length.mp (by rw [heq, ← hlen])
    have := hallskip r₀ hr₀
    rw [hns] at this
    exact Bool.false_ne_true this
  have hany : ((results.filter (fun r => !WellResult.isSkip r)).any
      (fun r => WellResult.isFail r)) = true := by
    rw [List.any_eq_true]
    exact ⟨r₀, List.mem_filter.mpr ⟨hr₀, by simp [hns]⟩, hf₀⟩
  have hfa : filter_assemble b results =
      .error (.runtimeError "Could not assemble the batch") := by
    unfold filter_assemble
    rw [if_neg hne, if_pos hany]
  simp only [filter_assemble_run, hfa]

/-- C4: the synthesized delegator on a node calls the operation on every
direct child in `children` order, normalizes a single result to a one-element
list and splices a list result, concatenates everything preserving both child
order and within-child order, and returns a shallow copy of the caller whose
`segments` is the flattened list (the input tree itself is a distinct,
unmodified value in this functional model — the shallow copy is what is
rebuilt with the new children). -/
theorem petroflow_c4 : ∀ (f : WTree → DelegRes) (cs : List WTree),
    delegator f (.well cs) =
      .ok (.well ((cs.map (fun c => DelegRes.toList (f c))).flatten)) ∧
    (∀ t', DelegRes.toList (.single t') = [t']) ∧
    (∀ ts, DelegRes.toList (.listRes ts) = ts) ∧
    (∀ cs₂ : List WTree, delegAccum f (cs ++ cs₂) = delegAccum f cs ++ delegAccum f cs₂) ∧
    Well.copy (.well cs) = .well cs := by
  intro f cs
  refine ⟨?_, fun t' => rfl, fun ts => rfl, delegAccum_append f cs, rfl⟩
  show Except.ok (WTree.well (delegAccum f cs)) = _
  rw [delegAccum_eq]

/-- C10: a node whose `segments` list is empty has `tree_depth = 2` (the
all-children-are-leaves test is vacuously true) and `n_segments = 0`, while
`depth_from`, `depth_to` and `length` raise (`min`/`max` of an empty
sequence): the derived accessors can raise on this state and no guard
reports it. -/
theorem petroflow_c10 :
    tree_depth (.well []) = .ok 2 ∧
    n_segments (.well []) = .ok 0 ∧
    depth_from (.well []) = .error .valueError ∧
    depth_to (.well []) = .error .valueError ∧
    lengthE (.well []) = .error .valueError := by
  refine ⟨rfl, rfl, rfl, rfl, rfl⟩

/-- C5: on any node with a non-empty children sequence whose children's
depth bounds are computable, `depth_from` is the minimum of the children's
`depth_from`, `depth_to` is the maximum of the children's `depth_to`,
`length` is `depth_to − depth_from`; these are recomputed on demand (they are
functions of the current tree), and consequently a node's depth range
encloses the depth range of every descendant. -/
theorem petroflow_c5 :
    (∀ (cs : List WTree) (v : ℚ) (vs : List ℚ), depth_fromL cs = .ok (v :: vs) →
      depth_from (.well cs) = .ok (vs.foldl min v) ∧
      vs.foldl min v ∈ v :: vs ∧ (∀ x ∈ v :: vs, vs.foldl min v ≤ x)) ∧
    (∀ (cs : List WTree) (v : ℚ) (vs : List ℚ), depth_toL cs = .ok (v :: vs) →
      depth_to (.well cs) = .ok (vs.foldl max v) ∧
      vs.foldl max v ∈ v :: vs ∧ (∀ x ∈ v :: vs, x ≤ vs.foldl max v)) ∧
    (∀ (t : WTree) (a b : ℚ), depth_to t = .ok b → depth_from t = .ok a →
      lengthE t = .ok (b - a)) ∧
    (∀ (t u : WTree), Subtree u t → ∀ (a b : ℚ),
      depth_from t = .ok a → depth_to t = .ok b →
      ∃ x y, depth_from u = .ok x ∧ depth_to u = .ok y ∧ a ≤ x ∧ y ≤ b) := by
  refine ⟨?_, ?_, ?_, ?_⟩
  · intro cs v vs h
    refine ⟨?_, foldl_min_mem vs v, foldl_min_le vs v⟩
    simp only [depth_from, h, okBind]
  · intro cs v vs h
    refine ⟨?_, foldl_max_mem vs v, foldl_max_ge vs v⟩
    simp only [depth_to, h, okBind]
  · intro t a b hb ha
    cases t with
    | seg s =>
      simp only [depth_from] at ha
      simp only [depth_to] at hb
      injection ha with ha'
      injection hb with hb'
      subst ha' hb'
      rfl
    | well cs =>
      simp only [lengthE, hb, okBind, ha]
  · intro t u hsub a b ha hb
    exact subtree_bounds hsub ha hb

/-- C5 witness: a two-leaf node with depth intervals `[1, 5]` and `[2, 7]`:
the node's `depth_from` is `1`, its `depth_to` is `7`, its `length` is `6`,
and the second leaf's interval is enclosed. -/
theorem petroflow_c5_witness :
    (depth_from (.well [.seg ⟨1, 5⟩, .seg ⟨2, 7⟩]) = .ok (([(2 : ℚ)]).foldl min 1) ∧
      ([(2 : ℚ)]).foldl min 1 ∈ [(1 : ℚ), 2] ∧
      (∀ x ∈ [(1 : ℚ), 2], ([(2 : ℚ)]).foldl min 1 ≤ x)) ∧
    lengthE (.well [.seg ⟨1, 5⟩, .seg ⟨2, 7⟩]) = .ok ((7 : ℚ) - 1) ∧
    (∃ x y, depth_from (.seg ⟨2, 7⟩) = .ok x ∧ depth_to (.seg ⟨2, 7⟩) = .ok y ∧
      (1 : ℚ) ≤ x ∧ y ≤ (7 : ℚ)) := by
  refine ⟨petroflow_c5.1 [.seg ⟨1, 5⟩, .seg ⟨2, 7⟩] 1 [2] (by decide), ?_, ?_⟩
  · exact petroflow_c5.2.2.1 (.well [.seg ⟨1, 5⟩, .seg ⟨2, 7⟩]) 1 7 (by decide) (by decide)
  · exact petroflow_c5.2.2.2 (.well [.seg ⟨1, 5⟩, .seg ⟨2, 7⟩]) (.seg ⟨2, 7⟩)
      (Subtree.child (by decide)) 1 7 (by decide) (by decide)

/-- C7: `iter_level` on any node with computable `tree_depth` `d` returns
`[self]` at level 0, the children at level 1, and at `2 ≤ lvl ≤ d` the
in-order concatenation of each child's `iter_level (lvl - 1)`; a negative
level is first translated by adding `tree_depth`; and a level below
`-tree_depth` or above `tree_depth` raises the invalid-level `ValueError`. -/
theorem petroflow_c7 (cs : List WTree) (d : Nat)
    (htd : tree_depth (.well cs) = .ok d) :
    iter_level (.well cs) 0 = .ok [.well cs] ∧
    iter_level (.well cs) 1 = .ok cs ∧
    (∀ lvl : Int, 2 ≤ lvl → lvl ≤ (d : Int) →
      iter_level (.well cs) lvl = iter_levelL cs (lvl - 1) ∧
      iter_levelL cs (lvl - 1) =
        ((cs.mapM (fun c => iter_level c (lvl - 1))).map List.flatten)) ∧
    (∀ lv : Int, lv < 0 → 0 ≤ (d : Int) + lv →
      iter_level (.well cs) lv = iter_level (.well cs) ((d : Int) + lv)) ∧
    (∀ lv : Int, lv < -(d : Int) ∨ (d : Int) < lv →
      iter_level (.well cs) lv = .error .valueError) := by
  have hd2 := tree_depth_two_le _ _ htd
  refine ⟨?_, ?_, ?_, ?_, ?_⟩
  · rw [iter_level_unfold cs d 0 htd]
    have e : normLvl d 0 = 0 := by simp [normLvl]
    rw [e, if_neg (by omega), if_pos rfl]
  · rw [iter_level_unfold cs d 1 htd]
    have e : normLvl d 1 = 1 := by simp [normLvl]
    rw [e, if_neg (by omega), if_neg (by omega), if_pos rfl]
  · intro lvl h2 hd
    constructor
    · rw [iter_level_unfold cs d lvl htd]
      have e : normLvl d lvl = lvl := by
        simp only [normLvl]
        rw [if_pos (by omega)]
      rw [e, if_neg (by omega), if_neg (by omega), if_neg (by omega)]
    · exact iter_levelL_eq_mapM cs (lvl - 1)
  · intro lv hneg hge
    rw [iter_level_unfold cs d lv htd, iter_level_unfold cs d ((d : Int) + lv) htd]
    have e1 : normLvl d lv = (d : Int) + lv := by
      simp only [normLvl]
      rw [if_neg (by omega)]
    have e2 : normLvl d ((d : Int) + lv) = (d : Int) + lv := by
      simp only [normLvl]
      rw [if_pos (by omega)]
    rw [e1, e2]
  · intro lv hbad
    rw [iter_level_unfold cs d lv htd]
    by_cases hp : lv ≥ 0
    · have e : normLvl d lv = lv := by
        simp only [normLvl]
        rw [if_pos hp]
      rw [e, if_pos (by omega)]
    · have e : normLvl d lv = (d : Int) + lv := by
        simp only [normLvl]
        rw [if_neg hp]
      rw [e, if_pos (by omega)]

/-- C7 witness: on the depth-2 node with one leaf, level 0 gives the node,
level 1 gives the children, level 2 recurses, `-1` translates to `2 - 1`,
and level 3 (above the tree depth) raises the invalid-level error. -/
theorem petroflow_c7_witness :
    iter_level (.well [.seg ⟨0, 1⟩]) 0 = .ok [.well [.seg ⟨0, 1⟩]] ∧
    iter_level (.well [.seg ⟨0, 1⟩]) 1 = .ok [.seg ⟨0, 1⟩] ∧
    iter_level (.well [.seg ⟨0, 1⟩]) 2 = iter_levelL [.seg ⟨0, 1⟩] (2 - 1) ∧
    iter_level (.well [.seg ⟨0, 1⟩]) (-1) = iter_level (.well [.seg ⟨0, 1⟩]) ((2 : Int) + (-1)) ∧
    iter_level (.well [.seg ⟨0, 1⟩]) 3 = .error .valueError := by
  have h := petroflow_c7 [.seg ⟨0, 1⟩] 2 (by decide)
  exact ⟨h.1, h.2.1, (h.2.2.1 2 (by omega) (by omega)).1,
    h.2.2.2.1 (-1) (by omega) (by omega), h.2.2.2.2 3 (by omega)⟩

/-- C8 counterexample: the claim "prune() is idempotent for every tree"
fails.  In the tree below, the first child has one item at the level
`n_segments` counts (an empty sub-well) but zero descendant leaves, so the
first prune keeps it and empties it; the second prune then removes it:
pruning twice differs from pruning once (and the first prune also keeps a
non-leaf child with zero descendant leaves, against the "removes exactly"
part of the claim). -/
theorem petroflow_c8_counterexample :
    prune (.well [.well [.well [], .well [.well []]],
                  .well [.well [.well [.seg ⟨0, 1⟩]]]]) =
      .ok (.well [.well [], .well [.well [.well [.seg ⟨0, 1⟩]]]]) ∧
    prune (.well [.well [], .well [.well [.well [.seg ⟨0, 1⟩]]]]) =
      .ok (.well [.well [.well [.well [.seg ⟨0, 1⟩]]]]) ∧
    (WTree.well [.well [.well [.well [.seg ⟨0, 1⟩]]]]) ≠
      .well [.well [], .well [.well [.well [.seg ⟨0, 1⟩]]]] := by
  refine ⟨?_, ?_, ?_⟩ <;> decide

/-- C8 amended: on depth-regular trees (all leaves at the same depth, every
node below the parents-of-leaves level non-empty — the shape every tree
built by this module's operations has), `prune` removes at every level
exactly the non-leaf children with zero descendant leaves (it equals the
spec-level `specPrune`) and is idempotent: pruning the pruned tree returns
it unchanged. -/
theorem petroflow_c8_amended (t : WTree) (d : Nat) (h : reg d t = true) :
    prune t = .ok (specPrune t) ∧ prune (specPrune t) = .ok (specPrune t) :=
  ⟨prune_eq_specPrune t d h, prune_specPrune_self t d h⟩

/-- C8 witness: a depth-2 well with one leaf is already pruned and pruning is
idempotent on it. -/
theorem petroflow_c8_witness :
    prune (.well [.seg ⟨0, 1⟩]) = .ok (specPrune (.well [.seg ⟨0, 1⟩])) ∧
    prune (specPrune (.well [.seg ⟨0, 1⟩])) = .ok (specPrune (.well [.seg ⟨0, 1⟩])) :=
  petroflow_c8_amended (.well [.seg ⟨0, 1⟩]) 2 (by decide)

/-- C9 counterexample: `create_segments` does not always increase
`tree_depth` by one.  On a tree with an *empty* parent-of-leaves as its first
child, the rewrite leaves that empty parent empty, the first-child chain that
`tree_depth` follows keeps its length, and the depth stays 3 instead of
becoming 4 (the same happens for `crop`, and `drop_short_segments` can also
change the depth when every leaf is dropped). -/
theorem petroflow_c9_counterexample :
    tree_depth (.well [.well [], .well [.seg ⟨0, 1⟩]]) = .ok 3 ∧
    create_segments (fun s => [s]) (.well [.well [], .well [.seg ⟨0, 1⟩]]) =
      .ok (.well [.well [], .well [.well [.seg ⟨0, 1⟩]]]) ∧
    tree_depth (.well [.well [], .well [.well [.seg ⟨0, 1⟩]]]) = .ok 3 := by
  refine ⟨?_, ?_, ?_⟩ <;> decide

/-- C9 amended: on depth-regular trees with every node non-empty,
`create_segments` and `crop` increase `tree_depth` by exactly one, replacing
every parent-of-leaves' children by one new sub-node per original leaf whose
children are that leaf's transform results (`splitParent` equation), whereas
`drop_short_segments m` keeps at each parent-of-leaves exactly the leaves
with length strictly greater than `m` and — provided at least one leaf
survives — leaves `tree_depth` unchanged. -/
theorem petroflow_c9_amended (t : WTree) (d : Nat)
    (f g : Segment → List Segment) (m : ℚ) (h : fullReg d t = true) :
    (∃ t₁, create_segments f t = .ok t₁ ∧ tree_depth t₁ = .ok (d + 1)) ∧
    (∃ t₂, crop g t = .ok t₂ ∧ tree_depth t₂ = .ok (d + 1)) ∧
    (∀ ss : List Segment, splitParent f (.well (ss.map WTree.seg)) =
      .ok (.well (ss.map (fun s => WTree.well ((f s).map WTree.seg))))) ∧
    ((∃ s ∈ leafSegs t, m < s.len) →
      ∃ t₃, drop_short_segments m t = .ok t₃ ∧ tree_depth t₃ = .ok d ∧
        leafSegs t₃ = (leafSegs t).filter (fun s => decide (m < s.len))) := by
  have htd := tree_depth_reg _ _ (fullReg_reg _ _ h)
  refine ⟨?_, ?_, ?_, ?_⟩
  · obtain ⟨t₁, hm, htd₁⟩ := split_fullReg f t d h
    refine ⟨t₁, ?_, htd₁⟩
    simp only [create_segments, htd, okBind, hm]
  · obtain ⟨t₂, hm, htd₂⟩ := split_fullReg g t d h
    refine ⟨t₂, ?_, htd₂⟩
    simp only [crop, htd, okBind, hm]
  · intro ss
    simp only [splitParent, mapM_wrap f ss, okBind]
  · intro hsur
    exact drop_short_ok m t d h hsur

/-- C9 witness: on a depth-2 well with one leaf of length 10,
`create_segments` (with an identity leaf collaborator) raises the tree depth
from 2 to 3, and `drop_short_segments 5` keeps the long leaf and leaves the
tree depth at 2. -/
theorem petroflow_c9_witness :
    (∃ t₁, create_segments (fun s => [s]) (.well [.seg ⟨0, 10⟩]) = .ok t₁ ∧
      tree_depth t₁ = .ok 3) ∧
    (∃ t₃, drop_short_segments 5 (.well [.seg ⟨0, 10⟩]) = .ok t₃ ∧
      tree_depth t₃ = .ok 2 ∧
      leafSegs t₃ = (leafSegs (.well [.seg ⟨0, 10⟩])).filter
        (fun s => decide ((5 : ℚ) < s.len))) :=
  have h := petroflow_c9_amended (.well [.seg ⟨0, 10⟩]) 2 (fun s => [s]) (fun s => [s]) 5
    (by decide)
  ⟨h.1, h.2.2.2 ⟨⟨0, 10⟩, by decide, by norm_num [Segment.len]⟩⟩

/-- C6 counterexample: on the irregular tree
`Well([Well([Well([]), Well([Well([])])]), Well([Well([Seg(0,10)])])])` the
third parent-of-leaves `Well([Seg(0,10)])` has positive total leaf length and
the allocation `[[], [0], [1]]` is aligned with the parents and totals 1, yet
`random_crop` raises ValueError: the stage-1 weight pass evaluates the length
of the empty sub-well `Well([])` inside the second parent, i.e. `max([])`. -/
theorem petroflow_c6_counterexample :
    iter_level (.well [.well [.well [], .well [.well []]],
        .well [.well [.seg ⟨0, 10⟩]]]) (-2) =
      .ok [.well [], .well [.well []], .well [.seg ⟨0, 10⟩]] ∧
    sumChildLengths (.well [.seg ⟨0, 10⟩]) = .ok (List.sum [(10 : ℚ) - 0]) ∧
    0 < List.sum [(10 : ℚ) - 0] ∧
    alignedB [(.well [] : WTree), .well [.well []], .well [.seg ⟨0, 10⟩]]
      [[], [0], [1]] = true ∧
    (([[], [0], [1]] : List (List Nat)).map List.sum).sum = 1 ∧
    random_crop (fun s k => List.replicate k s) [[], [0], [1]]
      (.well [.well [.well [], .well [.well []]], .well [.well [.seg ⟨0, 10⟩]]]) =
      .error .valueError := by
  refine ⟨by decide, rfl, ?_, by decide, by decide, by decide⟩
  norm_num [List.sum_cons, List.sum_nil]

/-- C6 amended: on depth-regular trees (all leaves at the same depth, children
homogeneous, empty parents-of-leaves allowed), `random_crop` — with the two
`np.random.choice`/`Counter` draws abstracted as the per-parent, per-leaf
allocation `alloc` (one entry per parent-of-leaves in `iter_level(-2)` order,
one count per leaf child, counts totalling `n_crops`), and assuming the leaf
collaborator `random_crop(length, k)` returns exactly `k` leaves — produces a
tree with exactly `n_crops` leaves: parents with zero draws are cleared, and
the final `prune()` leaves no branch with zero descendant leaves (`clean`).
On irregular trees the claim fails: the stage-1 weight pass can raise
ValueError on an empty sub-well (see the counterexample). -/
theorem petroflow_c6_amended (t : WTree) (d : Nat) (fRC : Segment → Nat → List Segment)
    (alloc : List (List Nat)) (n : Nat)
    (h : reg d t = true)
    (hf : ∀ s k, (fRC s k).length = k)
    (halign : alignedB (nodesAt (d - 2) t) alloc = true)
    (hsum : (alloc.map List.sum).sum = n) (_hn : 1 ≤ n) :
    ∃ t'', random_crop fRC alloc t = .ok t'' ∧ leafCount t'' = n ∧ clean t'' = true := by
  have htd := tree_depth_reg _ _ h
  have hneg2 := iter_level_neg2_reg t d h
  obtain ⟨qs, hqs⟩ := weightsL_ok _ ((reg_iter_parents t d h).2)
  obtain ⟨t', hw, hsh, hlc⟩ := rcWalk_ok fRC hf t d h alloc [] halign
  rw [List.append_nil] at hw
  have hpr := prune_rc t' (d - 2) hsh
  refine ⟨specPrune t', ?_, ?_, clean_specPrune t'⟩
  · simp only [random_crop, htd, okBind, hneg2, hqs, hw, hpr]
  · rw [leafCount_specPrune, hlc, hsum]

/-- C6 witness: one parent with one leaf of length 10, allocation `[[2]]`
(two crops drawn on the single leaf), leaf collaborator returning `k` copies:
the result has exactly 2 leaves and no empty branch. -/
theorem petroflow_c6_witness :
    ∃ t'', random_crop (fun s k => List.replicate k s) [[2]] (.well [.seg ⟨0, 10⟩]) =
      .ok t'' ∧ leafCount t'' = 2 ∧ clean t'' = true :=
  petroflow_c6_amended (.well [.seg ⟨0, 10⟩]) 2 (fun s k => List.replicate k s) [[2]] 2
    (by decide) (fun s k => List.length_replicate k s) (by decide) (by decide) (by decide)

/-- C1 witness: three roots, one skip and no failure: the batch call succeeds
and the surviving batch has exactly two identifiers and two roots. -/
theorem petroflow_c1_witness :
    ∃ b' : WellBatch Nat Nat,
      filter_assemble_run ⟨[1, 2, 3], [10, 20, 30]⟩
        [WellResult.ok 11, WellResult.skipExc "s", WellResult.ok 33] = (b', none) ∧
      b'.indices.length = 2 ∧ b'.wells.length = 2 := by
  obtain ⟨b', hrun, _, _, hleni, hlenw, _⟩ := petroflow_c1
    (⟨[1, 2, 3], [10, 20, 30]⟩ : WellBatch Nat Nat)
    [WellResult.ok 11, WellResult.skipExc "s", WellResult.ok 33]
    (by decide) (by decide) (by decide)
  refine ⟨b', hrun, ?_, ?_⟩
  · rw [hleni]; decide
  · rw [hlenw]; decide

/-- C2 witness: both roots skip: the batch-level skip carries the first
root's message and the batch is unchanged. -/
theorem petroflow_c2_witness :
    filter_assemble_run (⟨[1, 2], [10, 20]⟩ : WellBatch Nat Nat)
      [.skipExc "empty well", .skipExc "other"] =
      (⟨[1, 2], [10, 20]⟩, some (.skipBatch "empty well")) :=
  petroflow_c2 ⟨[1, 2], [10, 20]⟩ (.skipExc "empty well") [.skipExc "other"]
    (by decide) (by decide)

/-- C3 witness: one root succeeds and one raises a non-skip exception: the
batch aborts with the fatal assembly error and is unchanged. -/
theorem petroflow_c3_witness :
    filter_assemble_run (⟨[1, 2], [10, 20]⟩ : WellBatch Nat Nat)
      [.ok 11, .failExc "boom"] =
      (⟨[1, 2], [10, 20]⟩, some (.runtimeError "Could not assemble the batch")) :=
  petroflow_c3 ⟨[1, 2], [10, 20]⟩ [.ok 11, .failExc "boom"] (by decide)
    (.failExc "boom") (by decide) (by decide)
